import Mathlib

/-!
Verification of the schism repository core against its specification.

Shallow embedding of:
- `schism/conditions/boundary_conditions.py` (BoundaryCondition, ConditionGroup,
  BoundaryConditions, `_group_bcs` grouping via connected components), and
- `schism/geometry/skin.py` (`stencil_footprint`, `ModifiedSkin._get_points`).

Devito / sympy collaborators (equations, functions, derivatives) are embedded as a
small expression tree that supports exactly the queries the source issues:
`retrieve_functions`, `lhs.find(dv.Derivative)`, `deriv.expr`, `deriv.dims`,
`func.is_TimeDependent`.  networkx's `connected_components` over the field graph is
embedded by an incremental partition-merge; the theorem `insame_componentsOf` below
certifies that it computes exactly the connected components (equivalence classes of
transitive field sharing), which is the documented semantics of the library call.

Python exceptions are embedded as `Except Err`: `NotImplementedError` becomes
`Err.notImplemented` and `IndexError` (from `bc.funcs[0]` on an empty tuple) becomes
`Err.indexError`.  Where CPython leaves iteration order of a `set` unspecified
(`tuple(set(...))`), the embedding fixes first-occurrence order (`List.dedup`); no
theorem below depends on that order.
-/

namespace Schism

/-! ### Partition machinery: connected components of the field graph

`_group_bcs` builds a `networkx.Graph` whose nodes are the functions of every
condition and whose edges form a star from `bc.funcs[0]` to the remaining functions,
then takes `nx.connected_components`.  The embedding processes the conditions'
function tuples one at a time, maintaining the partition of the nodes seen so far
into connected components: new nodes start as singletons (`addNode`) and each star
edge merges the classes of its endpoints (`mergeEdge`). -/

section Partition

variable {α : Type} [DecidableEq α]

/-- Some class of the partition `p` contains `a` (the node has been seen). -/
def Covers (p : List (List α)) (a : α) : Prop := ∃ c ∈ p, a ∈ c

instance (p : List (List α)) (a : α) : Decidable (Covers p a) := by
  unfold Covers; infer_instance

/-- `a` and `b` lie in one class of the partition `p`. -/
def InSame (p : List (List α)) (a b : α) : Prop := ∃ c ∈ p, a ∈ c ∧ b ∈ c

instance (p : List (List α)) (a b : α) : Decidable (InSame p a b) := by
  unfold InSame; infer_instance

/-- Add a graph node: a fresh node becomes a singleton class. -/
def addNode (p : List (List α)) (a : α) : List (List α) :=
  if Covers p a then p else [a] :: p

/-- Add a graph edge `(a, b)`: merge every class touching `a` or `b` into one. -/
def mergeEdge (p : List (List α)) (a b : α) : List (List α) :=
  (p.filter (fun c => decide (a ∈ c ∨ b ∈ c))).flatten ::
    p.filter (fun c => !(decide (a ∈ c ∨ b ∈ c)))

/-- Process one condition's function tuple `fs`, mirroring the loop body of
`_group_bcs`: `f_graph.add_nodes_from(bc.funcs)` and then one edge from
`bc.funcs[0]` to each of `bc.funcs[1:]`.  Note that for an empty tuple the Python
edge comprehension `[(bc.funcs[0], func) for func in bc.funcs[1:]]` never evaluates
`bc.funcs[0]`, so no error occurs here. -/
def bcStep (p : List (List α)) (fs : List α) : List (List α) :=
  match fs with
  | [] => p
  | f0 :: rest => rest.foldl (fun q g => mergeEdge q f0 g) ((f0 :: rest).foldl addNode p)

/-- Connected components of the graph built from the function tuples `fss`
(`nx.connected_components(f_graph)`). -/
def componentsOf (fss : List (List α)) : List (List α) := fss.foldl bcStep []

/-- `a` and `b` occur together in some tuple of `fss` (they share a condition). -/
def LinkedL (fss : List (List α)) (a b : α) : Prop := ∃ fs ∈ fss, a ∈ fs ∧ b ∈ fs

/-- `a` occurs in some tuple of `fss`, i.e. it is a node of the field graph. -/
def IsNode (fss : List (List α)) (a : α) : Prop := ∃ fs ∈ fss, a ∈ fs

/-- Two classes are disjoint. -/
def Disj (c₁ c₂ : List α) : Prop := ∀ x, x ∈ c₁ → x ∉ c₂

/-- The invariant tying a partition `p` to the function tuples `fss` processed so
far: the classes are pairwise disjoint and nonempty, cover exactly the nodes of
the graph of `fss`, and two nodes share a class exactly when they are transitively
connected through shared tuples. -/
structure PartOK (fss p : List (List α)) : Prop where
  pw : p.Pairwise Disj
  ne : ∀ c ∈ p, c ≠ []
  cov : ∀ x, Covers p x ↔ IsNode fss x
  rel : ∀ x y, InSame p x y ↔ Relation.TransGen (LinkedL fss) x y

end Partition

/-! ### Embedding of the Devito equation interface -/

/-- A Devito `Function`: identified by an id, with the `is_TimeDependent` flag
queried by `_get_functions`. -/
structure Func where
  fid : Nat
  is_TimeDependent : Bool
deriving DecidableEq, Repr

/-- A symbolic expression, supporting the queries the source issues: it contains
function references, constants, derivatives (`dv.Derivative` with its `.expr` and
the differentiation dimensions `.dims`), sums and products. -/
inductive Expr where
  | func : Func → Expr
  | cnst : Int → Expr
  | deriv : Expr → List Nat → Expr
  | add : Expr → Expr → Expr
  | mul : Expr → Expr → Expr
deriving DecidableEq, Repr

/-- `devito.symbolics.retrieve_functions`: every function occurrence in the
expression, term by term, duplicates included. -/
def retrieve_functions : Expr → List Func
  | .func f => [f]
  | .cnst _ => []
  | .deriv e _ => retrieve_functions e
  | .add a b => retrieve_functions a ++ retrieve_functions b
  | .mul a b => retrieve_functions a ++ retrieve_functions b

/-- `lhs.find(dv.Derivative)`: every `Derivative` subexpression, nested ones
included, as a (differentiated expression, differentiation dimensions) pair. -/
def find_derivatives : Expr → List (Expr × List Nat)
  | .func _ => []
  | .cnst _ => []
  | .deriv e ds => (e, ds) :: find_derivatives e
  | .add a b => find_derivatives a ++ find_derivatives b
  | .mul a b => find_derivatives a ++ find_derivatives b

/-- In Devito a `Derivative` always differentiates in at least one dimension; an
expression is well formed when every derivative node records a nonempty dimension
tuple. -/
def Expr.wf : Expr → Bool
  | .func _ => true
  | .cnst _ => true
  | .deriv e ds => !ds.isEmpty && e.wf
  | .add a b => a.wf && b.wf
  | .mul a b => a.wf && b.wf

/-- A scalar Devito `Eq`: an equality between a symbolic left-hand side and a
right-hand side (the source only ever compares the latter with `0`). -/
structure SEq where
  lhs : Expr
  rhs : Int
deriving DecidableEq, Repr

/-- A possibly vector/matrix equation as supplied to `BoundaryConditions`;
`eq._flatten` yields its scalar components. -/
structure Eqn where
  comps : List SEq
deriving DecidableEq, Repr

/-- The Python exceptions the embedded code can raise: `NotImplementedError` for
unsupported equation or derivative shapes, `IndexError` for `bc.funcs[0]` on an
empty tuple. -/
inductive Err where
  | notImplemented
  | indexError
deriving DecidableEq, Repr

/-! ### BoundaryCondition -/

/-- The attributes a `BoundaryCondition` stores: the equation, the selected
functions (`self._funcs`) and the derivative dimensions (`self._dims`, `none` when
the equation contains no derivatives). -/
structure BoundaryCondition where
  eq : SEq
  funcs : List Func
  dims : Option (List Nat)
deriving DecidableEq, Repr

/-- `BoundaryCondition._get_functions`: with no user-supplied list, all
time-dependent functions of the LHS (duplicates culled); otherwise the
intersection of the LHS functions with the supplied ones. -/
def get_functions (lhs : Expr) (w : Option (List Func)) : List Func :=
  match w with
  | none => ((retrieve_functions lhs).filter (fun f => f.is_TimeDependent)).dedup
  | some fs => ((retrieve_functions lhs).dedup).filter (fun f => decide (f ∈ fs))

/-- The loop of `BoundaryCondition._get_derivative_dimensions`: for each derivative
found, fail unless its `.expr` is a bare `Function` belonging to `funcs`, otherwise
accumulate its `.dims`. -/
def derivative_dims (funcs : List Func) : List (Expr × List Nat) → Except Err (List Nat)
  | [] => .ok []
  | (e, ds) :: rest =>
    match e with
    | .func f =>
      if f ∈ funcs then
        match derivative_dims funcs rest with
        | .ok tail => .ok (ds ++ tail)
        | .error er => .error er
      else .error .notImplemented
    | _ => .error .notImplemented

/-- `BoundaryCondition.__init__`: `_parse_rhs` rejects a nonzero RHS, then
`_get_functions` selects the functions, then `_get_derivative_dimensions` collects
the differentiated dimensions (`None` when there are none). -/
def mkBoundaryCondition (e : SEq) (w : Option (List Func)) :
    Except Err BoundaryCondition :=
  if e.rhs ≠ 0 then .error .notImplemented
  else
    match derivative_dims (get_functions e.lhs w) (find_derivatives e.lhs) with
    | .error er => .error er
    | .ok ds => .ok ⟨e, get_functions e.lhs w, if ds.isEmpty then none else some ds.dedup⟩

/-! ### ConditionGroup and grouping -/

/-- A `ConditionGroup`: the conditions of the group and the functions defining it. -/
structure ConditionGroup where
  conditions : List BoundaryCondition
  funcs : List Func
deriving DecidableEq, Repr

/-- Two functions share a condition of `bcs`. -/
def Linked (bcs : List BoundaryCondition) (a b : Func) : Prop :=
  LinkedL (bcs.map (fun bc => bc.funcs)) a b

/-- The connected components of the field graph of `bcs`. -/
def components (bcs : List BoundaryCondition) : List (List Func) :=
  componentsOf (bcs.map (fun bc => bc.funcs))

/-- One loop iteration of `_group_bcs`: the `ConditionGroup` of a component,
holding the conditions whose `bc.funcs[0]` lies in the component. -/
def mkGroup (bcs : List BoundaryCondition) (comp : List Func) : ConditionGroup :=
  ConditionGroup.mk
    (bcs.filter (fun bc => decide (bc.funcs.headD ⟨0, false⟩ ∈ comp))) comp

/-- `BoundaryConditions._group_bcs`: build the field graph, take its connected
components, and for each component collect the conditions whose `bc.funcs[0]` lies
in it into a `ConditionGroup`, recording every component function in `f_map`.
When some component exists and some condition has an empty function tuple, the
comprehension `[bc for bc in self.bcs if bc.funcs[0] in group]` evaluates
`bc.funcs[0]` on the empty tuple and raises `IndexError` (the `headD` default below
is only ever read on a nonempty tuple).  The computed groups and `f_map` are
returned here; the source merely `print`s `f_map` and stores neither. -/
def group_bcs (bcs : List BoundaryCondition) :
    Except Err (List ConditionGroup × List (Func × ConditionGroup)) :=
  match components bcs with
  | [] => .ok ([], [])
  | c :: cs =>
    if bcs.any (fun bc => bc.funcs.isEmpty) then .error .indexError
    else
      let groups := (c :: cs).map (mkGroup bcs)
      .ok (groups, groups.flatMap (fun g => g.funcs.map (fun f => (f, g))))

/-! ### BoundaryConditions -/

/-- `BoundaryConditions._flatten_functions`: flatten the user-supplied functions
and cull duplicates (vector functions are supplied here already expanded to their
scalar components). -/
def flatten_functions : Option (List Func) → Option (List Func)
  | none => none
  | some fs => some fs.dedup

/-- `BoundaryConditions._flatten_equations`: concatenate every equation's scalar
components (`eq._flatten`) and cull duplicates (`tuple(set(eq_list))`). -/
def flatten_equations (eqs : List Eqn) : List SEq :=
  (eqs.flatMap (fun e => e.comps)).dedup

/-- `BoundaryConditions._setup_bcs`: one `BoundaryCondition` per flattened
equation, all sharing the flattened function list. -/
def setup_bcs (w : Option (List Func)) : List SEq → Except Err (List BoundaryCondition)
  | [] => .ok []
  | e :: rest =>
    match mkBoundaryCondition e w, setup_bcs w rest with
    | .ok bc, .ok bcs => .ok (bc :: bcs)
    | .error er, _ => .error er
    | _, .error er => .error er

/-- The attributes `BoundaryConditions.__init__` actually stores: `self._funcs`,
`self._eqs` and `self._bcs`.  `_group_bcs` stores nothing. -/
structure BoundaryConditions where
  funcs : Option (List Func)
  equations : List SEq
  bcs : List BoundaryCondition
deriving DecidableEq, Repr

/-- `BoundaryConditions.__init__`: flatten the functions and equations, build the
per-equation conditions, then run `_group_bcs`.  Any exception from grouping
propagates; on success the groups and the field-to-group map computed by
`_group_bcs` are discarded (the source only `print`s `f_map`), so the constructed
object holds only the three attributes below. -/
def mkBoundaryConditions (eqs : List Eqn) (w : Option (List Func)) :
    Except Err BoundaryConditions :=
  match setup_bcs (flatten_functions w) (flatten_equations eqs) with
  | .error er => .error er
  | .ok bcs =>
    match group_bcs bcs with
    | .error er => .error er
    | .ok _ => .ok ⟨flatten_functions w, flatten_equations eqs, bcs⟩

/-! ### Spec-side predicates about grouping -/

/-- `c` is an equivalence class of transitive field sharing: it is nonempty and,
for any of its members `x`, consists of exactly the functions transitively
connected to `x` through shared conditions. -/
def EquivClass (bcs : List BoundaryCondition) (c : List Func) : Prop :=
  c ≠ [] ∧ ∀ x ∈ c, ∀ y, y ∈ c ↔ Relation.TransGen (Linked bcs) x y

/-- A star edge of the field graph as `_group_bcs` builds it: an (undirected) edge
between `bc.funcs[0]` and one of `bc.funcs[1:]`. -/
def StarAdj (bcs : List BoundaryCondition) (a b : Func) : Prop :=
  ∃ bc ∈ bcs, ∃ f0 rest, bc.funcs = f0 :: rest ∧
    ((a = f0 ∧ b ∈ rest) ∨ (b = f0 ∧ a ∈ rest))

/-- `a` and `b` are connected in the star-edge field graph: `a` is a node and a
(possibly empty) path of star edges leads from `a` to `b`. -/
def StarConn (bcs : List BoundaryCondition) (a b : Func) : Prop :=
  (∃ bc ∈ bcs, a ∈ bc.funcs) ∧ Relation.ReflTransGen (StarAdj bcs) a b

/-- Equality of two function lists as sets. -/
def SetEqL (c d : List Func) : Prop := ∀ x, x ∈ c ↔ x ∈ d

/-- Two group lists agree when compared as sets of field sets. -/
def GroupsMatch (G H : List ConditionGroup) : Prop :=
  (∀ g ∈ G, ∃ h ∈ H, SetEqL g.funcs h.funcs) ∧
    (∀ h ∈ H, ∃ g ∈ G, SetEqL g.funcs h.funcs)

/-- The failure condition of `BoundaryCondition.__init__` as the specification
states it: a nonzero right-hand side, or some derivative of a non-`Function`
expression, or of a function outside the selected set. -/
def UnsupportedShape (e : SEq) (w : Option (List Func)) : Prop :=
  e.rhs ≠ 0 ∨ ∃ p ∈ find_derivatives e.lhs,
    (∀ f : Func, p.1 ≠ Expr.func f) ∨
      (∃ f : Func, p.1 = Expr.func f ∧ f ∉ get_functions e.lhs w)

/-! ### Embedding of `schism/geometry/skin.py` -/

/-- A derivative as `stencil_footprint` queries it: `deriv.expr.space_dimensions`,
`deriv.expr.space_order` and the differentiated dimensions `deriv.dims`
(dimensions are identified with their axis index). -/
structure SkinDeriv where
  space_dimensions : List Nat
  space_order : Nat
  dims : List Nat
deriving DecidableEq, Repr

/-- The geometry data `ModifiedSkin._get_points` consumes: `grid.shape`, the
boundary points (as index vectors, one per boundary point) and the interior mask
(as a predicate on index vectors).  `BoundaryGeometry` itself is outside `src`. -/
structure BoundaryGeometry where
  shape : List Nat
  boundary_points : List (List Int)
  interior_mask : List Int → Bool

/-- `np.arange(-s_o//2, s_o//2+1)`: Python floor division coincides with `Int`
Euclidean division `/` for the positive divisor `2`, and the range has
`s_o//2 + 1 - (-s_o//2) = s_o + 1` entries. -/
def span (so : Nat) : List Int :=
  (List.range (so + 1)).map (fun (i : Nat) => (-(so : Int)) / 2 + (i : Int))

/-- The per-axis span of `stencil_footprint`: the full symmetric `arange` on a
differentiated axis, the single zero offset (`np.zeros(1)`) otherwise. -/
def axisSpan (d : SkinDeriv) (a : Nat) : List Int :=
  if a ∈ d.dims then span d.space_order else [0]

/-- All combinations of one entry per axis span — the offset set produced by
`np.meshgrid` + `flatten` + `vstack` (the numpy column order differs, each
combination appearing exactly once either way). -/
def cartProd : List (List Int) → List (List Int)
  | [] => [[]]
  | s :: rest => s.flatMap (fun x => (cartProd rest).map (fun v => x :: v))

/-- `stencil_footprint(deriv)`: the outer product of the per-axis spans, as the
list of stencil offset vectors. -/
def stencil_footprint (d : SkinDeriv) : List (List Int) :=
  cartProd (d.space_dimensions.map (axisSpan d))

/-- The bounds-trimming loop of `_get_points`: for each axis, keep the points
whose index on that axis lies in `[0, grid.shape[dim])`.  The Python loop runs
over `range(mp.shape[0])`, the number of coordinate rows, which equals the grid
dimensionality `len(grid.shape)` for geometry-consistent boundary points. -/
def trim_bounds (shape : List Nat) (pts : List (List Int)) : List (List Int) :=
  (List.range shape.length).foldl
    (fun ps dim =>
      ps.filter (fun p => decide (0 ≤ p.getD dim 0 ∧ p.getD dim 0 < (shape.getD dim 0 : Int))))
    pts

/-- `ModifiedSkin._get_points`: add every footprint offset to every boundary point
(the broadcast sum `bp[:, :, np.newaxis] + fp[:, np.newaxis, :]`), cull duplicate
points (`np.unique(mp, axis=1)`, which keeps each distinct point once; the sorted
order it imposes is irrelevant to every property below), trim the points falling
outside the grid on any axis, and keep only interior-classified points. -/
def modified_points (d : SkinDeriv) (g : BoundaryGeometry) : List (List Int) :=
  let fp := stencil_footprint d
  let mp := g.boundary_points.flatMap (fun b => fp.map (fun o => List.zipWith (· + ·) b o))
  let trimmed := trim_bounds g.shape mp.dedup
  trimmed.filter (fun p => g.interior_mask p)

/-! ### Concrete fixtures used to witness the theorems on sample inputs -/

/-- A time-dependent function `u`. -/
def fA : Func := ⟨1, true⟩

/-- A time-dependent function `v`. -/
def fB : Func := ⟨2, true⟩

/-- A time-dependent function `w`. -/
def fC : Func := ⟨3, true⟩

/-- A static (non-time-dependent) coefficient function. -/
def fD : Func := ⟨4, false⟩

/-- Two conditions: one on `{fA, fB}` and one on `{fC}`. -/
def sampleBCs : List BoundaryCondition :=
  [⟨⟨Expr.add (Expr.func fA) (Expr.func fB), 0⟩, [fA, fB], none⟩,
   ⟨⟨Expr.func fC, 0⟩, [fC], none⟩]

/-- One vector-free equation `fA + fB = 0`. -/
def sampleEqs : List Eqn := [⟨[⟨Expr.add (Expr.func fA) (Expr.func fB), 0⟩]⟩]

/-- The condition built from `sampleEqs`. -/
def sampleEqsBCs : List BoundaryCondition :=
  [⟨⟨Expr.add (Expr.func fA) (Expr.func fB), 0⟩, [fA, fB], none⟩]

/-- Equations whose first member involves only the static function `fD`, so its
condition gets an empty selected function set under `funcs = None`. -/
def emptySelEqs : List Eqn := [⟨[⟨Expr.func fD, 0⟩]⟩, ⟨[⟨Expr.func fA, 0⟩]⟩]

/-- The conditions built from `emptySelEqs`. -/
def emptySelBCs : List BoundaryCondition :=
  [⟨⟨Expr.func fD, 0⟩, [], none⟩, ⟨⟨Expr.func fA, 0⟩, [fA], none⟩]

/-- Two equations, to be permuted. -/
def permEqs1 : List Eqn :=
  [⟨[⟨Expr.add (Expr.func fA) (Expr.func fB), 0⟩]⟩, ⟨[⟨Expr.func fC, 0⟩]⟩]

/-- The same two equations in the other order. -/
def permEqs2 : List Eqn :=
  [⟨[⟨Expr.func fC, 0⟩]⟩, ⟨[⟨Expr.add (Expr.func fA) (Expr.func fB), 0⟩]⟩]

/-- The conditions built from `permEqs1`. -/
def permBCs1 : List BoundaryCondition :=
  [⟨⟨Expr.add (Expr.func fA) (Expr.func fB), 0⟩, [fA, fB], none⟩,
   ⟨⟨Expr.func fC, 0⟩, [fC], none⟩]

/-- The group of `{fC}` as `_group_bcs` computes it on `permBCs1`. -/
def permGroupC : ConditionGroup := ⟨[⟨⟨Expr.func fC, 0⟩, [fC], none⟩], [fC]⟩

/-- The group of `{fA, fB}` as `_group_bcs` computes it on `permBCs1`. -/
def permGroupAB : ConditionGroup :=
  ⟨[⟨⟨Expr.add (Expr.func fA) (Expr.func fB), 0⟩, [fA, fB], none⟩], [fB, fA]⟩

/-- The full grouping result on `permBCs1`. -/
def permR1 : List ConditionGroup × List (Func × ConditionGroup) :=
  ([permGroupC, permGroupAB], [(fC, permGroupC), (fB, permGroupAB), (fA, permGroupAB)])

/-- A scalar equation with one derivative, `Derivative(fA, x) = 0`. -/
def derivEq : SEq := ⟨Expr.deriv (Expr.func fA) [0], 0⟩

/-- The condition built from `derivEq`. -/
def derivBC : BoundaryCondition := ⟨derivEq, [fA], some [0]⟩

/-- A second-order first derivative along the only axis of a 1-d grid. -/
def sampleDeriv1d : SkinDeriv := ⟨[0], 2, [0]⟩

/-- A second-order derivative along axis 0 of a 2-d grid. -/
def sampleDeriv2d : SkinDeriv := ⟨[0, 1], 2, [0]⟩

/-- A third-order (odd) derivative along the only axis of a 1-d grid. -/
def sampleDerivOdd : SkinDeriv := ⟨[0], 3, [0]⟩

/-- A 3-point 1-d grid with one boundary point and interior `{1, 2}`. -/
def sampleGeometry : BoundaryGeometry :=
  ⟨[3], [[1]], fun p => decide (1 ≤ p.getD 0 0)⟩

/-- A geometry with no boundary points at all. -/
def emptyGeometry : BoundaryGeometry := ⟨[3], [], fun _ => true⟩

/-! ## Lemmas about the partition machinery -/

section PartitionLemmas

variable {α : Type}

theorem covers_nil (x : α) : ¬ Covers ([] : List (List α)) x := by
  simp [Covers]

theorem covers_cons {c : List α} {p : List (List α)} {x : α} :
    Covers (c :: p) x ↔ x ∈ c ∨ Covers p x := by
  simp [Covers, List.exists_mem_cons_iff]

theorem insame_nil (x y : α) : ¬ InSame ([] : List (List α)) x y := by
  simp [InSame]

theorem insame_cons {c : List α} {p : List (List α)} {x y : α} :
    InSame (c :: p) x y ↔ (x ∈ c ∧ y ∈ c) ∨ InSame p x y := by
  simp [InSame, List.exists_mem_cons_iff]

theorem insame_symm {p : List (List α)} {x y : α} (h : InSame p x y) : InSame p y x := by
  obtain ⟨c, hc, hx, hy⟩ := h
  exact ⟨c, hc, hy, hx⟩

theorem insame_of_covers {p : List (List α)} {x : α} (h : Covers p x) : InSame p x x := by
  obtain ⟨c, hc, hx⟩ := h
  exact ⟨c, hc, hx, hx⟩

theorem covers_of_insame {p : List (List α)} {x y : α} (h : InSame p x y) : Covers p x := by
  obtain ⟨c, hc, hx, _⟩ := h
  exact ⟨c, hc, hx⟩

theorem disj_symm : Symmetric (Disj (α := α)) := by
  intro c₁ c₂ h x hx₂ hx₁
  exact h x hx₁ hx₂

/-- In a pairwise-disjoint partition, the class of any element is unique. -/
theorem class_eq_of_mem {p : List (List α)} (hpw : p.Pairwise Disj)
    {c c' : List α} {x : α} (hc : c ∈ p) (hc' : c' ∈ p) (hx : x ∈ c) (hx' : x ∈ c') :
    c = c' := by
  by_contra hne
  exact hpw.forall disj_symm hc hc' hne x hx hx'

theorem insame_trans {p : List (List α)} (hpw : p.Pairwise Disj) {x y z : α}
    (h₁ : InSame p x z) (h₂ : InSame p z y) : InSame p x y := by
  obtain ⟨c, hc, hx, hz⟩ := h₁
  obtain ⟨c', hc', hz', hy⟩ := h₂
  have := class_eq_of_mem hpw hc hc' hz hz'
  subst this
  exact ⟨c, hc, hx, hy⟩

/-! ### addNode -/

theorem covers_addNode [DecidableEq α] {p : List (List α)} {a x : α} :
    Covers (addNode p a) x ↔ Covers p x ∨ x = a := by
  unfold addNode
  split
  · rename_i h
    constructor
    · exact Or.inl
    · rintro (hx | rfl)
      · exact hx
      · exact h
  · rw [covers_cons]
    simp [List.mem_singleton, or_comm]

theorem insame_addNode [DecidableEq α] {p : List (List α)} {a x y : α} :
    InSame (addNode p a) x y ↔ InSame p x y ∨ (x = a ∧ y = a) := by
  unfold addNode
  split
  · rename_i h
    constructor
    · exact Or.inl
    · rintro (hx | ⟨rfl, rfl⟩)
      · exact hx
      · exact insame_of_covers h
  · rw [insame_cons]
    simp [List.mem_singleton, or_comm]

theorem pw_addNode [DecidableEq α] {p : List (List α)} {a : α} (hpw : p.Pairwise Disj) :
    (addNode p a).Pairwise Disj := by
  unfold addNode
  split
  · exact hpw
  · rename_i h
    refine List.Pairwise.cons ?_ hpw
    intro c hc x hx
    rw [List.mem_singleton] at hx
    subst hx
    intro hxc
    exact h ⟨c, hc, hxc⟩

theorem ne_addNode [DecidableEq α] {p : List (List α)} {a : α} (hne : ∀ c ∈ p, c ≠ []) :
    ∀ c ∈ addNode p a, c ≠ [] := by
  unfold addNode
  split
  · exact hne
  · intro c hc
    rcases List.mem_cons.1 hc with rfl | hc
    · simp
    · exact hne c hc

theorem covers_addNodes [DecidableEq α] {p : List (List α)} {l : List α} {x : α} :
    Covers (l.foldl addNode p) x ↔ Covers p x ∨ x ∈ l := by
  induction l generalizing p with
  | nil => simp
  | cons a l ih =>
    rw [List.foldl_cons, ih, covers_addNode]
    simp only [List.mem_cons]
    tauto

theorem insame_addNodes [DecidableEq α] {p : List (List α)} {l : List α} {x y : α} :
    InSame (l.foldl addNode p) x y ↔ InSame p x y ∨ (x = y ∧ x ∈ l) := by
  induction l generalizing p with
  | nil => simp
  | cons a l ih =>
    rw [List.foldl_cons, ih, insame_addNode]
    constructor
    · rintro ((h | ⟨rfl, rfl⟩) | ⟨rfl, hx⟩)
      · exact Or.inl h
      · exact Or.inr ⟨rfl, List.mem_cons_self _ _⟩
      · exact Or.inr ⟨rfl, List.mem_cons_of_mem _ hx⟩
    · rintro (h | ⟨rfl, hx⟩)
      · exact Or.inl (Or.inl h)
      · rcases List.mem_cons.1 hx with rfl | hx
        · exact Or.inl (Or.inr ⟨rfl, rfl⟩)
        · exact Or.inr ⟨rfl, hx⟩

theorem pw_addNodes [DecidableEq α] {p : List (List α)} {l : List α} (hpw : p.Pairwise Disj) :
    (l.foldl addNode p).Pairwise Disj := by
  induction l generalizing p with
  | nil => exact hpw
  | cons a l ih => exact ih (pw_addNode hpw)

theorem ne_addNodes [DecidableEq α] {p : List (List α)} {l : List α} (hne : ∀ c ∈ p, c ≠ []) :
    ∀ c ∈ l.foldl addNode p, c ≠ [] := by
  induction l generalizing p with
  | nil => exact hne
  | cons a l ih => exact ih (ne_addNode hne)

/-! ### mergeEdge -/

theorem mem_merged [DecidableEq α] {p : List (List α)} {a b x : α} :
    x ∈ (p.filter (fun c => decide (a ∈ c ∨ b ∈ c))).flatten ↔
      InSame p x a ∨ InSame p x b := by
  rw [List.mem_flatten]
  constructor
  · rintro ⟨c, hc, hx⟩
    rw [List.mem_filter] at hc
    obtain ⟨hcp, hab⟩ := hc
    rw [decide_eq_true_iff] at hab
    rcases hab with ha | hb
    · exact Or.inl ⟨c, hcp, hx, ha⟩
    · exact Or.inr ⟨c, hcp, hx, hb⟩
  · rintro (⟨c, hc, hx, ha⟩ | ⟨c, hc, hx, hb⟩)
    · exact ⟨c, List.mem_filter.2 ⟨hc, by simp [ha]⟩, hx⟩
    · exact ⟨c, List.mem_filter.2 ⟨hc, by simp [hb]⟩, hx⟩

theorem insame_rest [DecidableEq α] {p : List (List α)} {a b x y : α} :
    InSame (p.filter (fun c => !(decide (a ∈ c ∨ b ∈ c)))) x y ↔
      ∃ c ∈ p, ¬(a ∈ c ∨ b ∈ c) ∧ x ∈ c ∧ y ∈ c := by
  constructor
  · rintro ⟨c, hc, hx, hy⟩
    rw [List.mem_filter, Bool.not_eq_true', decide_eq_false_iff_not] at hc
    exact ⟨c, hc.1, hc.2, hx, hy⟩
  · rintro ⟨c, hc, hab, hx, hy⟩
    refine ⟨c, ?_, hx, hy⟩
    rw [List.mem_filter, Bool.not_eq_true', decide_eq_false_iff_not]
    exact ⟨hc, hab⟩

theorem insame_mergeEdge [DecidableEq α] {p : List (List α)} {a b x y : α} :
    InSame (mergeEdge p a b) x y ↔
      InSame p x y ∨
        ((InSame p x a ∨ InSame p x b) ∧ (InSame p y a ∨ InSame p y b)) := by
  unfold mergeEdge
  rw [insame_cons, mem_merged, mem_merged, insame_rest]
  constructor
  · rintro (⟨hx, hy⟩ | ⟨c, hc, _, hx, hy⟩)
    · exact Or.inr ⟨hx, hy⟩
    · exact Or.inl ⟨c, hc, hx, hy⟩
  · rintro (⟨c, hc, hx, hy⟩ | ⟨hx, hy⟩)
    · by_cases hab : a ∈ c ∨ b ∈ c
      · rcases hab with ha | hb
        · exact Or.inl ⟨Or.inl ⟨c, hc, hx, ha⟩, Or.inl ⟨c, hc, hy, ha⟩⟩
        · exact Or.inl ⟨Or.inr ⟨c, hc, hx, hb⟩, Or.inr ⟨c, hc, hy, hb⟩⟩
      · exact Or.inr ⟨c, hc, hab, hx, hy⟩
    · exact Or.inl ⟨hx, hy⟩

theorem covers_mergeEdge [DecidableEq α] {p : List (List α)} {a b x : α} :
    Covers (mergeEdge p a b) x ↔ Covers p x := by
  unfold mergeEdge
  rw [covers_cons, mem_merged]
  constructor
  · rintro ((h | h) | h)
    · exact covers_of_insame h
    · exact covers_of_insame h
    · obtain ⟨c, hc, hx⟩ := h
      rw [List.mem_filter] at hc
      exact ⟨c, hc.1, hx⟩
  · rintro ⟨c, hc, hx⟩
    by_cases hab : a ∈ c ∨ b ∈ c
    · rcases hab with ha | hb
      · exact Or.inl (Or.inl ⟨c, hc, hx, ha⟩)
      · exact Or.inl (Or.inr ⟨c, hc, hx, hb⟩)
    · refine Or.inr ⟨c, ?_, hx⟩
      rw [List.mem_filter, Bool.not_eq_true', decide_eq_false_iff_not]
      exact ⟨hc, hab⟩

theorem pw_mergeEdge [DecidableEq α] {p : List (List α)} {a b : α}
    (hpw : p.Pairwise Disj) : (mergeEdge p a b).Pairwise Disj := by
  unfold mergeEdge
  refine List.Pairwise.cons ?_ (hpw.filter _)
  intro c' hc' x hx hxc'
  obtain ⟨c, hcf, hxc⟩ := List.mem_flatten.1 hx
  rw [List.mem_filter] at hc'
  rw [List.mem_filter] at hcf
  have hne : c ≠ c' := by
    intro h
    subst h
    have h1 : decide (a ∈ c ∨ b ∈ c) = true := hcf.2
    have h2 := hc'.2
    rw [Bool.not_eq_true'] at h2
    rw [h1] at h2
    exact Bool.noConfusion h2
  exact hpw.forall disj_symm hcf.1 hc'.1 hne x hxc hxc'

theorem ne_mergeEdge [DecidableEq α] {p : List (List α)} {a b : α}
    (hne : ∀ c ∈ p, c ≠ []) (hca : Covers p a) : ∀ c ∈ mergeEdge p a b, c ≠ [] := by
  intro c hc
  unfold mergeEdge at hc
  rcases List.mem_cons.1 hc with rfl | hc
  · have : a ∈ (p.filter (fun c => decide (a ∈ c ∨ b ∈ c))).flatten :=
      mem_merged.2 (Or.inl (insame_of_covers hca))
    exact List.ne_nil_of_mem this
  · rw [List.mem_filter] at hc
    exact hne c hc.1

/-! ### The fold over the star edges of one condition -/

theorem covers_starFold [DecidableEq α] {p : List (List α)} {f0 : α} {gs : List α} {x : α} :
    Covers (gs.foldl (fun q g => mergeEdge q f0 g) p) x ↔ Covers p x := by
  induction gs generalizing p with
  | nil => exact Iff.rfl
  | cons g gs ih => rw [List.foldl_cons, ih, covers_mergeEdge]

theorem pw_starFold [DecidableEq α] {p : List (List α)} {f0 : α} {gs : List α}
    (hpw : p.Pairwise Disj) : (gs.foldl (fun q g => mergeEdge q f0 g) p).Pairwise Disj := by
  induction gs generalizing p with
  | nil => exact hpw
  | cons g gs ih => exact ih (pw_mergeEdge hpw)

theorem ne_starFold [DecidableEq α] {p : List (List α)} {f0 : α} {gs : List α}
    (hne : ∀ c ∈ p, c ≠ []) (hcov : Covers p f0) :
    ∀ c ∈ gs.foldl (fun q g => mergeEdge q f0 g) p, c ≠ [] := by
  induction gs generalizing p with
  | nil => exact hne
  | cons g gs ih => exact ih (ne_mergeEdge hne hcov) (covers_mergeEdge.2 hcov)

theorem insame_starFold [DecidableEq α] {p : List (List α)} {f0 : α} {gs : List α}
    (hcov : Covers p f0) (hpw : p.Pairwise Disj) (x y : α) :
    InSame (gs.foldl (fun q g => mergeEdge q f0 g) p) x y ↔
      InSame p x y ∨
        ((InSame p x f0 ∨ ∃ g ∈ gs, InSame p x g) ∧
          (InSame p y f0 ∨ ∃ g ∈ gs, InSame p y g)) := by
  induction gs generalizing p with
  | nil =>
    simp only [List.foldl_nil, List.not_mem_nil, false_and, exists_false, or_false]
    constructor
    · exact Or.inl
    · rintro (h | ⟨hx, hy⟩)
      · exact h
      · exact insame_trans hpw hx (insame_symm hy)
  | cons g gs ih =>
    rw [List.foldl_cons, ih (covers_mergeEdge.2 hcov) (pw_mergeEdge hpw)]
    have hm : ∀ u v : α, InSame (mergeEdge p f0 g) u v ↔
        InSame p u v ∨
          ((InSame p u f0 ∨ InSame p u g) ∧ (InSame p v f0 ∨ InSame p v g)) :=
      fun u v => insame_mergeEdge
    have hff : InSame p f0 f0 := insame_of_covers hcov
    have hS : ∀ u : α,
        (InSame (mergeEdge p f0 g) u f0 ∨ ∃ g' ∈ gs, InSame (mergeEdge p f0 g) u g') ↔
          (InSame p u f0 ∨ InSame p u g ∨ ∃ g' ∈ gs, InSame p u g') := by
      intro u
      constructor
      · rintro (h | ⟨g', hg', h⟩)
        · rcases (hm u f0).1 h with h | ⟨hu, _⟩
          · exact Or.inl h
          · rcases hu with h | h
            · exact Or.inl h
            · exact Or.inr (Or.inl h)
        · rcases (hm u g').1 h with h | ⟨hu, _⟩
          · exact Or.inr (Or.inr ⟨g', hg', h⟩)
          · rcases hu with h | h
            · exact Or.inl h
            · exact Or.inr (Or.inl h)
      · rintro (h | h | ⟨g', hg', h⟩)
        · exact Or.inl ((hm u f0).2 (Or.inl h))
        · exact Or.inl ((hm u f0).2 (Or.inr ⟨Or.inr h, Or.inl hff⟩))
        · exact Or.inr ⟨g', hg', (hm u g').2 (Or.inl h)⟩
    rw [hm x y, hS x, hS y]
    simp only [List.exists_mem_cons_iff]
    tauto

/-! ### TransGen helpers -/

theorem transGen_symm {L : α → α → Prop} (hs : Symmetric L) {a b : α}
    (h : Relation.TransGen L a b) : Relation.TransGen L b a := by
  induction h with
  | single h => exact Relation.TransGen.single (hs h)
  | tail _ h ih => exact Relation.TransGen.head (hs h) ih

theorem transGen_congr {L M : α → α → Prop} (h : ∀ a b, L a b ↔ M a b) {a b : α} :
    Relation.TransGen L a b ↔ Relation.TransGen M a b :=
  ⟨Relation.TransGen.mono (fun a b hab => (h a b).1 hab),
   Relation.TransGen.mono (fun a b hab => (h a b).2 hab)⟩

theorem not_transGen_linkedL_nil {a b : α} :
    ¬ Relation.TransGen (LinkedL ([] : List (List α))) a b := by
  intro h
  induction h with
  | single h =>
    obtain ⟨fs, hfs, _⟩ := h
    exact (List.not_mem_nil fs) hfs
  | tail _ _ ih => exact ih

/-- Closing a symmetric relation's transitive closure under the extra clique `F`:
the join formula. -/
theorem transGen_join {L : α → α → Prop} (hs : Symmetric L) (F : List α) (x y : α) :
    Relation.TransGen (fun a b => L a b ∨ (a ∈ F ∧ b ∈ F)) x y ↔
      Relation.TransGen L x y ∨
        ((∃ f ∈ F, Relation.TransGen L x f ∨ x = f) ∧
          (∃ f ∈ F, Relation.TransGen L y f ∨ y = f)) := by
  constructor
  · intro h
    induction h with
    | single h =>
      rcases h with h | ⟨ha, hb⟩
      · exact Or.inl (Relation.TransGen.single h)
      · exact Or.inr ⟨⟨x, ha, Or.inr rfl⟩, ⟨_, hb, Or.inr rfl⟩⟩
    | tail _ hstep ih =>
      rename_i b c _
      rcases hstep with hbc | ⟨hb, hc⟩
      · rcases ih with h | ⟨hA, hB⟩
        · exact Or.inl (h.tail hbc)
        · refine Or.inr ⟨hA, ?_⟩
          obtain ⟨f, hf, hbf⟩ := hB
          have hcb : Relation.TransGen L c b := Relation.TransGen.single (hs hbc)
          rcases hbf with hbf | rfl
          · exact ⟨f, hf, Or.inl (hcb.trans hbf)⟩
          · exact ⟨b, hf, Or.inl hcb⟩
      · refine Or.inr ⟨?_, ⟨c, hc, Or.inr rfl⟩⟩
        rcases ih with h | ⟨hA, _⟩
        · exact ⟨b, hb, Or.inl h⟩
        · exact hA
  · rintro (h | ⟨⟨f, hf, hxf⟩, ⟨g, hg, hyg⟩⟩)
    · exact h.mono (fun a b hab => Or.inl hab)
    · have mid : Relation.TransGen (fun a b => L a b ∨ (a ∈ F ∧ b ∈ F)) f g :=
        Relation.TransGen.single (Or.inr ⟨hf, hg⟩)
      have left : Relation.TransGen (fun a b => L a b ∨ (a ∈ F ∧ b ∈ F)) x g := by
        rcases hxf with hxf | rfl
        · exact (hxf.mono (fun a b hab => Or.inl hab)).trans mid
        · exact mid
      rcases hyg with hyg | rfl
      · exact left.trans ((transGen_symm hs hyg).mono (fun a b hab => Or.inl hab))
      · exact left

/-! ### The per-condition step and the master invariant -/

theorem linkedL_symm {fss : List (List α)} : Symmetric (LinkedL fss) := by
  rintro a b ⟨t, ht, ha, hb⟩
  exact ⟨t, ht, hb, ha⟩

theorem linkedL_snoc {fss : List (List α)} {fs : List α} {a b : α} :
    LinkedL (fss ++ [fs]) a b ↔ LinkedL fss a b ∨ (a ∈ fs ∧ b ∈ fs) := by
  constructor
  · rintro ⟨t, ht, ha, hb⟩
    rcases List.mem_append.1 ht with ht | ht
    · exact Or.inl ⟨t, ht, ha, hb⟩
    · rw [List.mem_singleton] at ht
      subst ht
      exact Or.inr ⟨ha, hb⟩
  · rintro (⟨t, ht, ha, hb⟩ | ⟨ha, hb⟩)
    · exact ⟨t, List.mem_append_left _ ht, ha, hb⟩
    · exact ⟨fs, List.mem_append_right _ (List.mem_singleton_self _), ha, hb⟩

theorem isNode_snoc {fss : List (List α)} {fs : List α} {a : α} :
    IsNode (fss ++ [fs]) a ↔ IsNode fss a ∨ a ∈ fs := by
  constructor
  · rintro ⟨t, ht, ha⟩
    rcases List.mem_append.1 ht with ht | ht
    · exact Or.inl ⟨t, ht, ha⟩
    · rw [List.mem_singleton] at ht
      subst ht
      exact Or.inr ha
  · rintro (⟨t, ht, ha⟩ | ha)
    · exact ⟨t, List.mem_append_left _ ht, ha⟩
    · exact ⟨fs, List.mem_append_right _ (List.mem_singleton_self _), ha⟩

theorem partOK_bcStep [DecidableEq α] {fss p : List (List α)} (h : PartOK fss p)
    (fs : List α) : PartOK (fss ++ [fs]) (bcStep p fs) := by
  cases fs with
  | nil =>
    simp only [bcStep]
    refine ⟨h.pw, h.ne, ?_, ?_⟩
    · intro x
      rw [h.cov x, isNode_snoc]
      simp
    · intro x y
      rw [h.rel x y]
      refine transGen_congr (fun a b => ?_)
      rw [linkedL_snoc]
      simp
  | cons f0 rest =>
    simp only [bcStep]
    have hcov1 : Covers ((f0 :: rest).foldl addNode p) f0 :=
      covers_addNodes.2 (Or.inr (List.mem_cons_self _ _))
    have hpw1 : ((f0 :: rest).foldl addNode p).Pairwise Disj := pw_addNodes h.pw
    have hne1 : ∀ c ∈ (f0 :: rest).foldl addNode p, c ≠ [] := ne_addNodes h.ne
    refine ⟨pw_starFold hpw1, ne_starFold hne1 hcov1, ?_, ?_⟩
    · intro x
      rw [covers_starFold, covers_addNodes, h.cov x, isNode_snoc]
    · intro x y
      rw [insame_starFold hcov1 hpw1 x y]
      have hrhs : Relation.TransGen (LinkedL (fss ++ [f0 :: rest])) x y ↔
          Relation.TransGen
            (fun a b => LinkedL fss a b ∨ (a ∈ f0 :: rest ∧ b ∈ f0 :: rest)) x y :=
        transGen_congr (fun a b => linkedL_snoc)
      rw [hrhs, transGen_join linkedL_symm (f0 :: rest) x y]
      have h1 : ∀ u v : α, InSame ((f0 :: rest).foldl addNode p) u v ↔
          Relation.TransGen (LinkedL fss) u v ∨ (u = v ∧ u ∈ f0 :: rest) := by
        intro u v
        rw [insame_addNodes, h.rel u v]
      have hS : ∀ u : α,
          (InSame ((f0 :: rest).foldl addNode p) u f0 ∨
            ∃ g ∈ rest, InSame ((f0 :: rest).foldl addNode p) u g) ↔
            ∃ f ∈ f0 :: rest, Relation.TransGen (LinkedL fss) u f ∨ u = f := by
        intro u
        constructor
        · rintro (h' | ⟨g, hg, h'⟩)
          · rcases (h1 u f0).1 h' with h' | ⟨heq, _⟩
            · exact ⟨f0, List.mem_cons_self _ _, Or.inl h'⟩
            · exact ⟨f0, List.mem_cons_self _ _, Or.inr heq⟩
          · rcases (h1 u g).1 h' with h' | ⟨heq, _⟩
            · exact ⟨g, List.mem_cons_of_mem _ hg, Or.inl h'⟩
            · exact ⟨g, List.mem_cons_of_mem _ hg, Or.inr heq⟩
        · rintro ⟨f, hf, h'⟩
          have hins : InSame ((f0 :: rest).foldl addNode p) u f := by
            rcases h' with h' | heq
            · exact (h1 u f).2 (Or.inl h')
            · refine (h1 u f).2 (Or.inr ⟨heq, ?_⟩)
              rw [heq]
              exact hf
          rcases List.mem_cons.1 hf with heq2 | hf2
          · exact Or.inl (heq2 ▸ hins)
          · exact Or.inr ⟨f, hf2, hins⟩
      rw [h1 x y, hS x, hS y]
      constructor
      · rintro ((h' | ⟨heq, hx⟩) | ⟨hx, hy⟩)
        · exact Or.inl h'
        · exact Or.inr ⟨⟨x, hx, Or.inr rfl⟩, ⟨x, hx, Or.inr heq.symm⟩⟩
        · exact Or.inr ⟨hx, hy⟩
      · rintro (h' | ⟨hx, hy⟩)
        · exact Or.inl (Or.inl h')
        · exact Or.inr ⟨hx, hy⟩

theorem partOK_componentsOf [DecidableEq α] (fss : List (List α)) :
    PartOK fss (componentsOf fss) := by
  have base : PartOK ([] : List (List α)) [] := by
    refine ⟨List.Pairwise.nil, by simp, fun x => ?_, fun x y => ?_⟩
    · constructor
      · rintro ⟨c, hc, _⟩
        exact absurd hc (List.not_mem_nil c)
      · rintro ⟨t, ht, _⟩
        exact absurd ht (List.not_mem_nil t)
    · constructor
      · rintro ⟨c, hc, _⟩
        exact absurd hc (List.not_mem_nil c)
      · intro h
        exact absurd h not_transGen_linkedL_nil
  have main : ∀ (rest fss₁ p : List (List α)), PartOK fss₁ p →
      PartOK (fss₁ ++ rest) (rest.foldl bcStep p) := by
    intro rest
    induction rest with
    | nil =>
      intro fss₁ p h
      simpa using h
    | cons fs rest ih =>
      intro fss₁ p h
      have h2 := ih (fss₁ ++ [fs]) (bcStep p fs) (partOK_bcStep h fs)
      rw [List.append_assoc] at h2
      simpa using h2
  have := main fss [] [] base
  simpa [componentsOf] using this

/-! ### Corollaries: `componentsOf` computes exactly the connected components -/

theorem insame_componentsOf [DecidableEq α] {fss : List (List α)} {a b : α} :
    InSame (componentsOf fss) a b ↔ Relation.TransGen (LinkedL fss) a b :=
  (partOK_componentsOf fss).rel a b

theorem covers_componentsOf [DecidableEq α] {fss : List (List α)} {a : α} :
    Covers (componentsOf fss) a ↔ IsNode fss a :=
  (partOK_componentsOf fss).cov a

theorem componentsOf_pairwise [DecidableEq α] (fss : List (List α)) :
    (componentsOf fss).Pairwise Disj :=
  (partOK_componentsOf fss).pw

theorem componentsOf_ne [DecidableEq α] (fss : List (List α)) :
    ∀ c ∈ componentsOf fss, c ≠ [] :=
  (partOK_componentsOf fss).ne

/-- A component is exactly the connectivity class of any of its members. -/
theorem mem_component_iff [DecidableEq α] {fss : List (List α)} {c : List α}
    (hc : c ∈ componentsOf fss) {x : α} (hx : x ∈ c) (y : α) :
    y ∈ c ↔ Relation.TransGen (LinkedL fss) x y := by
  constructor
  · intro hy
    exact insame_componentsOf.1 ⟨c, hc, hx, hy⟩
  · intro h
    obtain ⟨c', hc', hx', hy'⟩ := insame_componentsOf.2 h
    have heq := class_eq_of_mem (componentsOf_pairwise fss) hc hc' hx hx'
    exact heq.symm ▸ hy'

theorem isNode_of_transGen {fss : List (List α)} {x y : α}
    (h : Relation.TransGen (LinkedL fss) x y) : IsNode fss x := by
  induction h with
  | single h =>
    obtain ⟨fs, hfs, hx, _⟩ := h
    exact ⟨fs, hfs, hx⟩
  | tail _ _ ih => exact ih

theorem componentsOf_eq_nil_iff [DecidableEq α] {fss : List (List α)} :
    componentsOf fss = [] ↔ ∀ a, ¬ IsNode fss a := by
  constructor
  · intro h a ha
    obtain ⟨c, hc, _⟩ := covers_componentsOf.2 ha
    rw [h] at hc
    exact List.not_mem_nil c hc
  · intro h
    cases hcomp : componentsOf fss with
    | nil => rfl
    | cons c cs =>
      exfalso
      have hcmem : c ∈ componentsOf fss := by
        rw [hcomp]
        exact List.mem_cons_self _ _
      obtain ⟨x, hx⟩ := List.exists_mem_of_ne_nil c (componentsOf_ne fss c hcmem)
      exact h x (covers_componentsOf.1 ⟨c, hcmem, hx⟩)

end PartitionLemmas

/-! ## Lemmas about grouping at the `BoundaryCondition` level -/

section GroupingLemmas

theorem linked_symm {bcs : List BoundaryCondition} : Symmetric (Linked bcs) :=
  fun _ _ h => linkedL_symm h

/-- A shared condition induces a star path between any two of its functions. -/
theorem starPath_of_linked {bcs : List BoundaryCondition} {a b : Func}
    (h : Linked bcs a b) : Relation.ReflTransGen (StarAdj bcs) a b := by
  obtain ⟨fs, hfs, ha, hb⟩ := h
  obtain ⟨bc, hbc, rfl⟩ := List.mem_map.1 hfs
  cases hfs2 : bc.funcs with
  | nil =>
    rw [hfs2] at ha
    exact absurd ha (List.not_mem_nil a)
  | cons f0 rest =>
    rw [hfs2] at ha hb
    have leg : ∀ u, u ∈ f0 :: rest → Relation.ReflTransGen (StarAdj bcs) f0 u := by
      intro u hu
      rcases List.mem_cons.1 hu with rfl | hu
      · exact Relation.ReflTransGen.refl
      · exact Relation.ReflTransGen.single ⟨bc, hbc, f0, rest, hfs2, Or.inl ⟨rfl, hu⟩⟩
    have leg1 : Relation.ReflTransGen (StarAdj bcs) a f0 := by
      rcases List.mem_cons.1 ha with rfl | ha2
      · exact Relation.ReflTransGen.refl
      · exact Relation.ReflTransGen.single ⟨bc, hbc, f0, rest, hfs2, Or.inr ⟨rfl, ha2⟩⟩
    exact leg1.trans (leg b hb)

/-- Connectivity in the star-edge graph built by `_group_bcs` coincides with
transitive connectivity through shared conditions. -/
theorem starConn_iff_transGen {bcs : List BoundaryCondition} (x y : Func) :
    StarConn bcs x y ↔ Relation.TransGen (Linked bcs) x y := by
  constructor
  · rintro ⟨⟨bc, hbc, hx⟩, hpath⟩
    induction hpath with
    | refl =>
      exact Relation.TransGen.single ⟨bc.funcs, List.mem_map_of_mem _ hbc, hx, hx⟩
    | tail _ hstep ih =>
      refine Relation.TransGen.tail ih ?_
      obtain ⟨bc', hbc', f0, rest, hfs, hcase⟩ := hstep
      rcases hcase with ⟨rfl, hmem⟩ | ⟨rfl, hmem⟩
      · exact ⟨bc'.funcs, List.mem_map_of_mem _ hbc', by rw [hfs]; exact List.mem_cons_self _ _,
          by rw [hfs]; exact List.mem_cons_of_mem _ hmem⟩
      · exact ⟨bc'.funcs, List.mem_map_of_mem _ hbc', by rw [hfs]; exact List.mem_cons_of_mem _ hmem,
          by rw [hfs]; exact List.mem_cons_self _ _⟩
  · intro h
    induction h with
    | single h =>
      obtain ⟨fs, hfs, hx, hy⟩ := h
      obtain ⟨bc, hbc, rfl⟩ := List.mem_map.1 hfs
      exact ⟨⟨bc, hbc, hx⟩, starPath_of_linked ⟨bc.funcs, hfs, hx, hy⟩⟩
    | tail _ hstep ih =>
      exact ⟨ih.1, ih.2.trans (starPath_of_linked hstep)⟩

theorem headD_mem {α : Type} {l : List α} (h : l ≠ []) (d : α) : l.headD d ∈ l := by
  cases l with
  | nil => exact absurd rfl h
  | cons a l => exact List.mem_cons_self _ _

theorem covers_components_iff {bcs : List BoundaryCondition} {x : Func} :
    Covers (components bcs) x ↔ ∃ bc ∈ bcs, x ∈ bc.funcs := by
  unfold components
  rw [covers_componentsOf]
  constructor
  · rintro ⟨fs, hfs, hx⟩
    obtain ⟨bc, hbc, rfl⟩ := List.mem_map.1 hfs
    exact ⟨bc, hbc, hx⟩
  · rintro ⟨bc, hbc, hx⟩
    exact ⟨bc.funcs, List.mem_map_of_mem _ hbc, hx⟩

theorem components_ne {bcs : List BoundaryCondition} :
    ∀ c ∈ components bcs, c ≠ [] := by
  unfold components
  exact componentsOf_ne _

theorem components_pairwise (bcs : List BoundaryCondition) :
    (components bcs).Pairwise Disj := by
  unfold components
  exact componentsOf_pairwise _

theorem mem_components_class {bcs : List BoundaryCondition} {c : List Func}
    (hc : c ∈ components bcs) {x : Func} (hx : x ∈ c) (y : Func) :
    y ∈ c ↔ Relation.TransGen (Linked bcs) x y := by
  unfold components at hc
  unfold Linked
  exact mem_component_iff hc hx y

theorem covers_of_transGen {bcs : List BoundaryCondition} {x y : Func}
    (h : Relation.TransGen (Linked bcs) x y) : Covers (components bcs) x := by
  unfold Linked at h
  unfold components
  exact covers_componentsOf.2 (isNode_of_transGen h)

theorem group_bcs_ok {bcs : List BoundaryCondition} {c0 : List Func} {cs : List (List Func)}
    (hcomp : components bcs = c0 :: cs)
    (hnot : bcs.any (fun bc => bc.funcs.isEmpty) = false) :
    group_bcs bcs = Except.ok ((c0 :: cs).map (mkGroup bcs),
      ((c0 :: cs).map (mkGroup bcs)).flatMap (fun g => g.funcs.map (fun f => (f, g)))) := by
  unfold group_bcs
  rw [hcomp, hnot]
  simp

end GroupingLemmas

/-! ## The claims -/

/-- C2: for every condition set in which each condition has a nonempty field set,
the grouping step succeeds and produces exactly one `ConditionGroup` per connected
component of the star-edge field graph (star connectivity coinciding with
transitive connectivity through shared fields); each group's field set is such a
component, distinct groups have distinct field sets, a group's conditions are
exactly the conditions whose field set intersects the component, and two
conditions land in a common group iff their field sets are transitively connected
through shared fields. -/
theorem grouping_matches_components (bcs : List BoundaryCondition)
    (hne : ∀ bc ∈ bcs, bc.funcs ≠ []) :
    ∃ r, group_bcs bcs = Except.ok r ∧
      (∀ x y, StarConn bcs x y ↔ Relation.TransGen (Linked bcs) x y) ∧
      (∀ g ∈ r.1, EquivClass bcs g.funcs) ∧
      (∀ c, EquivClass bcs c → ∃ g ∈ r.1, SetEqL c g.funcs) ∧
      r.1.Pairwise (fun g h => ¬ SetEqL g.funcs h.funcs) ∧
      (∀ g ∈ r.1, ∀ bc, bc ∈ g.conditions ↔ (bc ∈ bcs ∧ ∃ f ∈ bc.funcs, f ∈ g.funcs)) ∧
      (∀ bc1 ∈ bcs, ∀ bc2 ∈ bcs,
        (∃ g ∈ r.1, bc1 ∈ g.conditions ∧ bc2 ∈ g.conditions) ↔
          ∃ f1 ∈ bc1.funcs, ∃ f2 ∈ bc2.funcs, Relation.TransGen (Linked bcs) f1 f2) := by
  have hstar : ∀ x y : Func, StarConn bcs x y ↔ Relation.TransGen (Linked bcs) x y :=
    fun x y => starConn_iff_transGen x y
  cases hcomp : components bcs with
  | nil =>
    refine ⟨([], []), ?_, hstar, ?_, ?_, List.Pairwise.nil, ?_, ?_⟩
    · unfold group_bcs
      rw [hcomp]
    · intro g hg
      exact absurd hg (List.not_mem_nil g)
    · intro c hc
      exfalso
      obtain ⟨x, hx⟩ := List.exists_mem_of_ne_nil c hc.1
      have hcov := covers_of_transGen ((hc.2 x hx x).1 hx)
      rw [hcomp] at hcov
      obtain ⟨c', hc', _⟩ := hcov
      exact List.not_mem_nil c' hc'
    · intro g hg
      exact absurd hg (List.not_mem_nil g)
    · intro bc1 h1 bc2 h2
      constructor
      · rintro ⟨g, hg, _⟩
        exact absurd hg (List.not_mem_nil g)
      · rintro ⟨f1, hf1, f2, hf2, hTG⟩
        exfalso
        have hcov := covers_of_transGen hTG
        rw [hcomp] at hcov
        obtain ⟨c', hc', _⟩ := hcov
        exact List.not_mem_nil c' hc'
  | cons c0 cs =>
    have hnot : bcs.any (fun bc => bc.funcs.isEmpty) = false := by
      rw [Bool.eq_false_iff]
      intro hany
      obtain ⟨bc, hbc, hemp⟩ := List.any_eq_true.1 hany
      exact hne bc hbc (List.isEmpty_iff.1 hemp)
    have hcompsub : ∀ comp, comp ∈ c0 :: cs → comp ∈ components bcs := by
      intro comp h
      rw [hcomp]
      exact h
    have hcompne : ∀ comp ∈ c0 :: cs, comp ≠ [] :=
      fun comp h => components_ne comp (hcompsub comp h)
    have hclassify : ∀ comp ∈ c0 :: cs, ∀ x ∈ comp, ∀ y,
        y ∈ comp ↔ Relation.TransGen (Linked bcs) x y :=
      fun comp hcm x hx y => mem_components_class (hcompsub comp hcm) hx y
    have hcond : ∀ comp ∈ c0 :: cs, ∀ bc,
        bc ∈ (mkGroup bcs comp).conditions ↔ (bc ∈ bcs ∧ ∃ f ∈ bc.funcs, f ∈ comp) := by
      intro comp hcm bc
      unfold mkGroup
      rw [List.mem_filter, decide_eq_true_iff]
      constructor
      · rintro ⟨hbc, hhd⟩
        exact ⟨hbc, bc.funcs.headD ⟨0, false⟩, headD_mem (hne bc hbc) _, hhd⟩
      · rintro ⟨hbc, f, hf, hfc⟩
        refine ⟨hbc, ?_⟩
        have hlink : Relation.TransGen (Linked bcs) f (bc.funcs.headD ⟨0, false⟩) :=
          Relation.TransGen.single
            ⟨bc.funcs, List.mem_map_of_mem _ hbc, hf, headD_mem (hne bc hbc) _⟩
        exact (hclassify comp hcm f hfc _).2 hlink
    refine ⟨((c0 :: cs).map (mkGroup bcs),
      ((c0 :: cs).map (mkGroup bcs)).flatMap (fun g => g.funcs.map (fun f => (f, g)))),
      group_bcs_ok hcomp hnot, hstar, ?_, ?_, ?_, ?_, ?_⟩
    · intro g hg
      obtain ⟨comp, hcm, rfl⟩ := List.mem_map.1 hg
      exact ⟨hcompne comp hcm, fun x hx y => hclassify comp hcm x hx y⟩
    · intro c hc
      obtain ⟨x, hx⟩ := List.exists_mem_of_ne_nil c hc.1
      have hcov := covers_of_transGen ((hc.2 x hx x).1 hx)
      rw [hcomp] at hcov
      obtain ⟨comp, hcm, hxc⟩ := hcov
      refine ⟨mkGroup bcs comp, List.mem_map_of_mem _ hcm, fun y => ?_⟩
      rw [hc.2 x hx y]
      exact (hclassify comp hcm x hxc y).symm
    · rw [List.pairwise_map]
      have hpw : (c0 :: cs).Pairwise Disj := by
        rw [← hcomp]
        exact components_pairwise bcs
      refine hpw.imp_of_mem ?_
      intro c1 c2 h1 h2 hdisj hset
      obtain ⟨x, hx⟩ := List.exists_mem_of_ne_nil c1 (hcompne c1 h1)
      exact hdisj x hx ((hset x).1 hx)
    · intro g hg bc
      obtain ⟨comp, hcm, rfl⟩ := List.mem_map.1 hg
      exact hcond comp hcm bc
    · intro bc1 h1 bc2 h2
      constructor
      · rintro ⟨g, hg, hg1, hg2⟩
        obtain ⟨comp, hcm, rfl⟩ := List.mem_map.1 hg
        obtain ⟨_, f1, hf1, hfc1⟩ := (hcond comp hcm bc1).1 hg1
        obtain ⟨_, f2, hf2, hfc2⟩ := (hcond comp hcm bc2).1 hg2
        exact ⟨f1, hf1, f2, hf2, (hclassify comp hcm f1 hfc1 f2).1 hfc2⟩
      · rintro ⟨f1, hf1, f2, hf2, hTG⟩
        have hcov : Covers (components bcs) f1 :=
          covers_components_iff.2 ⟨bc1, h1, hf1⟩
        rw [hcomp] at hcov
        obtain ⟨comp, hcm, hfc1⟩ := hcov
        refine ⟨mkGroup bcs comp, List.mem_map_of_mem _ hcm, ?_, ?_⟩
        · exact (hcond comp hcm bc1).2 ⟨h1, f1, hf1, hfc1⟩
        · exact (hcond comp hcm bc2).2 ⟨h2, f2, hf2, (hclassify comp hcm f1 hfc1 f2).2 hTG⟩


/-! ## Lemmas about `schism/geometry/skin.py` -/

section SkinLemmas

theorem length_span (so : Nat) : (span so).length = so + 1 := by
  simp [span]

theorem mem_span {so : Nat} {x : Int} :
    x ∈ span so ↔ (-(so : Int)) / 2 ≤ x ∧ x ≤ (-(so : Int)) / 2 + so := by
  unfold span
  rw [List.mem_map]
  constructor
  · rintro ⟨i, hi, rfl⟩
    rw [List.mem_range] at hi
    omega
  · rintro ⟨h1, h2⟩
    refine ⟨(x - (-(so : Int)) / 2).toNat, ?_, ?_⟩
    · rw [List.mem_range]
      omega
    · omega

/-- Membership in the outer product: a vector per-axis chosen from each span. -/
theorem mem_cartProd {ls : List (List Int)} {v : List Int} :
    v ∈ cartProd ls ↔
      v.length = ls.length ∧ ∀ i, i < ls.length → v.getD i 0 ∈ ls.getD i [] := by
  induction ls generalizing v with
  | nil =>
    simp only [cartProd, List.mem_singleton, List.length_nil]
    constructor
    · rintro rfl
      exact ⟨rfl, fun i hi => absurd hi (Nat.not_lt_zero i)⟩
    · rintro ⟨hlen, _⟩
      exact List.length_eq_zero.1 hlen
  | cons s ls ih =>
    constructor
    · intro hv
      simp only [cartProd, List.mem_flatMap, List.mem_map] at hv
      obtain ⟨x, hx, w, hw, rfl⟩ := hv
      obtain ⟨hlen, hall⟩ := ih.1 hw
      refine ⟨by simp [hlen], ?_⟩
      intro i hi
      cases i with
      | zero => exact hx
      | succ i => exact hall i (by simpa using hi)
    · rintro ⟨hlen, hall⟩
      cases v with
      | nil => simp at hlen
      | cons x w =>
        simp only [cartProd, List.mem_flatMap, List.mem_map]
        refine ⟨x, hall 0 (by simp), w, ih.2 ⟨by simpa using hlen, ?_⟩, rfl⟩
        intro i hi
        exact hall (i + 1) (by simpa using Nat.succ_lt_succ hi)

/-- The per-footprint-index description of `stencil_footprint`. -/
theorem mem_stencil_footprint {d : SkinDeriv} {v : List Int} :
    v ∈ stencil_footprint d ↔
      v.length = d.space_dimensions.length ∧
        ∀ i, i < d.space_dimensions.length →
          v.getD i 0 ∈ axisSpan d (d.space_dimensions.getD i 0) := by
  unfold stencil_footprint
  rw [mem_cartProd]
  have hget : ∀ i, i < d.space_dimensions.length →
      (d.space_dimensions.map (axisSpan d)).getD i [] =
        axisSpan d (d.space_dimensions.getD i 0) := by
    intro i h
    rw [List.getD_eq_getElem _ _ (by simpa using h), List.getElem_map,
      List.getD_eq_getElem _ _ h]
  constructor
  · rintro ⟨hlen, hall⟩
    refine ⟨by simpa using hlen, fun i hi => ?_⟩
    rw [← hget i hi]
    exact hall i (by simpa using hi)
  · rintro ⟨hlen, hall⟩
    refine ⟨by simpa using hlen, fun i hi => ?_⟩
    rw [hget i (by simpa using hi)]
    exact hall i (by simpa using hi)

theorem mem_filterFold {l : List Nat} {pred : Nat → List Int → Bool}
    {pts : List (List Int)} {x : List Int} :
    x ∈ l.foldl (fun ps d => ps.filter (pred d)) pts ↔
      x ∈ pts ∧ ∀ d ∈ l, pred d x = true := by
  induction l generalizing pts with
  | nil => simp
  | cons d l ihl =>
    rw [List.foldl_cons, ihl]
    constructor
    · rintro ⟨hmem, hall⟩
      rw [List.mem_filter] at hmem
      refine ⟨hmem.1, fun d2 hd2 => ?_⟩
      rcases List.mem_cons.1 hd2 with rfl | hd2
      · exact hmem.2
      · exact hall d2 hd2
    · rintro ⟨hmem, hall⟩
      exact ⟨List.mem_filter.2 ⟨hmem, hall d (List.mem_cons_self _ _)⟩,
        fun d2 hd2 => hall d2 (List.mem_cons_of_mem _ hd2)⟩

theorem nodup_filterFold {l : List Nat} {pred : Nat → List Int → Bool}
    {pts : List (List Int)} (h : pts.Nodup) :
    (l.foldl (fun ps d => ps.filter (pred d)) pts).Nodup := by
  induction l generalizing pts with
  | nil => exact h
  | cons d l ihl => exact ihl (h.filter _)

theorem filterFold_nil {l : List Nat} {pred : Nat → List Int → Bool} :
    l.foldl (fun ps d => ps.filter (pred d)) [] = [] := by
  induction l with
  | nil => rfl
  | cons d l ihl => exact ihl

/-- `_get_points` with the local `let`s unfolded. -/
theorem modified_points_eq (d : SkinDeriv) (g : BoundaryGeometry) :
    modified_points d g =
      (trim_bounds g.shape
        ((g.boundary_points.flatMap
          (fun b => (stencil_footprint d).map (fun o => List.zipWith (fun u v => u + v) b o))).dedup)).filter
        (fun p => g.interior_mask p) := rfl

end SkinLemmas

/-- C5: every modified-skin point lies, on each axis, strictly inside the grid
bounds `[0, shape[axis])`, is interior-classified, and the skin holds no
duplicate points; hence the skin is a subset of the interior points. -/
theorem modified_points_subset_interior (d : SkinDeriv) (g : BoundaryGeometry)
    (p : List Int) (hp : p ∈ modified_points d g) :
    (∀ i, i < g.shape.length → 0 ≤ p.getD i 0 ∧ p.getD i 0 < (g.shape.getD i 0 : Int)) ∧
      g.interior_mask p = true ∧ (modified_points d g).Nodup := by
  rw [modified_points_eq] at hp
  rw [List.mem_filter] at hp
  obtain ⟨htrim, hint⟩ := hp
  unfold trim_bounds at htrim
  rw [mem_filterFold] at htrim
  refine ⟨?_, hint, ?_⟩
  · intro i hi
    have h := htrim.2 i (List.mem_range.2 hi)
    rw [decide_eq_true_iff] at h
    exact h
  · rw [modified_points_eq]
    refine List.Nodup.filter _ ?_
    unfold trim_bounds
    exact nodup_filterFold (List.nodup_dedup _)

/-- C8: an empty boundary-point set yields an empty modified-point set (and the
construction raises no error: the embedding is total on this input). -/
theorem modified_points_of_empty_boundary (d : SkinDeriv) (g : BoundaryGeometry)
    (h : g.boundary_points = []) : modified_points d g = [] := by
  rw [modified_points_eq, h]
  show (trim_bounds g.shape (List.dedup [])).filter _ = []
  rw [List.dedup_nil]
  unfold trim_bounds
  rw [filterFold_nil]
  rfl

/-- C6: for an even space order `p`, a differentiated axis contributes a span of
exactly `p + 1` offsets, symmetric about zero and filling `[-p/2, p/2]`; a
non-differentiated axis contributes exactly `[0]`; and the footprint consists of
exactly the vectors choosing one offset from each axis span. -/
theorem footprint_even (d : SkinDeriv) (hp : d.space_order % 2 = 0) :
    (∀ a ∈ d.space_dimensions, a ∈ d.dims →
      (axisSpan d a).length = d.space_order + 1 ∧
      (∀ x : Int, x ∈ axisSpan d a ↔
        -((d.space_order / 2 : Nat) : Int) ≤ x ∧ x ≤ ((d.space_order / 2 : Nat) : Int)) ∧
      (∀ x : Int, x ∈ axisSpan d a → -x ∈ axisSpan d a)) ∧
    (∀ a ∈ d.space_dimensions, a ∉ d.dims → axisSpan d a = [0]) ∧
    (∀ v, v ∈ stencil_footprint d ↔
      (v.length = d.space_dimensions.length ∧
        ∀ i, i < d.space_dimensions.length →
          v.getD i 0 ∈ axisSpan d (d.space_dimensions.getD i 0))) := by
  have hmem : ∀ x : Int, x ∈ span d.space_order ↔
      -((d.space_order / 2 : Nat) : Int) ≤ x ∧ x ≤ ((d.space_order / 2 : Nat) : Int) := by
    intro x
    rw [mem_span]
    omega
  refine ⟨?_, ?_, fun v => mem_stencil_footprint⟩
  · intro a _ ha
    unfold axisSpan
    rw [if_pos ha]
    refine ⟨length_span _, hmem, fun x hx => ?_⟩
    rw [hmem] at hx ⊢
    omega
  · intro a _ ha
    unfold axisSpan
    rw [if_neg ha]

/-- C10: for an odd space order `p`, a differentiated axis contributes the
`p + 1` offsets from `-(p+1)/2` through `(p-1)/2`: one more point on the
negative side, not `⌊p/2⌋` points on each side. -/
theorem footprint_odd (d : SkinDeriv) (hp : d.space_order % 2 = 1) :
    ∀ a ∈ d.dims,
      (axisSpan d a).length = d.space_order + 1 ∧
      (∀ x : Int, x ∈ axisSpan d a ↔
        -(((d.space_order + 1) / 2 : Nat) : Int) ≤ x ∧
          x ≤ (((d.space_order - 1) / 2 : Nat) : Int)) ∧
      -(((d.space_order + 1) / 2 : Nat) : Int) ∈ axisSpan d a ∧
      (((d.space_order + 1) / 2 : Nat) : Int) ∉ axisSpan d a := by
  intro a ha
  unfold axisSpan
  rw [if_pos ha]
  have hmem : ∀ x : Int, x ∈ span d.space_order ↔
      -(((d.space_order + 1) / 2 : Nat) : Int) ≤ x ∧
        x ≤ (((d.space_order - 1) / 2 : Nat) : Int) := by
    intro x
    rw [mem_span]
    omega
  refine ⟨length_span _, hmem, ?_, ?_⟩
  · rw [hmem]
    omega
  · rw [hmem]
    omega


/-! ## Lemmas about `BoundaryCondition` construction -/

section BCLemmas

theorem derivative_dims_ok_iff {funcs : List Func} {l : List (Expr × List Nat)} :
    (∃ ds, derivative_dims funcs l = Except.ok ds) ↔
      ∀ p ∈ l, ∃ f, p.1 = Expr.func f ∧ f ∈ funcs := by
  induction l with
  | nil =>
    simp only [derivative_dims]
    exact ⟨fun _ p hp => absurd hp (List.not_mem_nil p), fun _ => ⟨[], rfl⟩⟩
  | cons p l ih =>
    obtain ⟨e, ds⟩ := p
    constructor
    · rintro ⟨ds2, h⟩
      cases e with
      | func f =>
        simp only [derivative_dims] at h
        by_cases hf : f ∈ funcs
        · rw [if_pos hf] at h
          intro q hq
          rcases List.mem_cons.1 hq with rfl | hq
          · exact ⟨f, rfl, hf⟩
          · cases hrec : derivative_dims funcs l with
            | ok tail => exact (ih.1 ⟨tail, hrec⟩) q hq
            | error er =>
              rw [hrec] at h
              exact absurd h (by simp)
        · rw [if_neg hf] at h
          exact absurd h (by simp)
      | cnst k => exact absurd h (by simp [derivative_dims])
      | deriv e2 ds2b => exact absurd h (by simp [derivative_dims])
      | add e2 e3 => exact absurd h (by simp [derivative_dims])
      | mul e2 e3 => exact absurd h (by simp [derivative_dims])
    · intro hall
      obtain ⟨f, hf1, hf2⟩ := hall (e, ds) (List.mem_cons_self _ _)
      obtain ⟨tail, htail⟩ := ih.2 (fun q hq => hall q (List.mem_cons_of_mem _ hq))
      cases e with
      | func f2 =>
        have hff : f2 = f := by
          simpa using hf1
        subst hff
        refine ⟨ds ++ tail, ?_⟩
        simp only [derivative_dims]
        rw [if_pos hf2, htail]
      | cnst k => exact absurd hf1 (by simp)
      | deriv e2 ds2b => exact absurd hf1 (by simp)
      | add e2 e3 => exact absurd hf1 (by simp)
      | mul e2 e3 => exact absurd hf1 (by simp)

theorem derivative_dims_error_val {funcs : List Func} {l : List (Expr × List Nat)} :
    ∀ {er : Err}, derivative_dims funcs l = Except.error er → er = Err.notImplemented := by
  induction l with
  | nil => intro er h; exact absurd h (by simp [derivative_dims])
  | cons p l ih =>
    intro er h
    obtain ⟨e, ds⟩ := p
    cases e with
    | func f =>
      simp only [derivative_dims] at h
      by_cases hf : f ∈ funcs
      · rw [if_pos hf] at h
        cases hrec : derivative_dims funcs l with
        | ok tail =>
          rw [hrec] at h
          exact absurd h (by simp)
        | error er2 =>
          rw [hrec] at h
          simp only [Except.error.injEq] at h
          rw [← h]
          exact ih hrec
      · rw [if_neg hf] at h
        simp only [Except.error.injEq] at h
        exact h.symm
    | cnst k =>
      simp only [derivative_dims, Except.error.injEq] at h
      exact h.symm
    | deriv e2 ds2 =>
      simp only [derivative_dims, Except.error.injEq] at h
      exact h.symm
    | add e2 e3 =>
      simp only [derivative_dims, Except.error.injEq] at h
      exact h.symm
    | mul e2 e3 =>
      simp only [derivative_dims, Except.error.injEq] at h
      exact h.symm

theorem derivative_dims_ok_val {funcs : List Func} {l : List (Expr × List Nat)}
    {ds : List Nat} (h : derivative_dims funcs l = Except.ok ds) :
    ds = l.flatMap (fun p => p.2) := by
  induction l generalizing ds with
  | nil =>
    simp only [derivative_dims, Except.ok.injEq] at h
    simp [← h]
  | cons p l ih =>
    obtain ⟨e, ds0⟩ := p
    cases e with
    | func f =>
      simp only [derivative_dims] at h
      by_cases hf : f ∈ funcs
      · rw [if_pos hf] at h
        cases hrec : derivative_dims funcs l with
        | ok tail =>
          rw [hrec] at h
          simp only [Except.ok.injEq] at h
          rw [← h, ih hrec]
          simp
        | error er =>
          rw [hrec] at h
          exact absurd h (by simp)
      · rw [if_neg hf] at h
        exact absurd h (by simp)
    | cnst k => exact absurd h (by simp [derivative_dims])
    | deriv e2 ds2 => exact absurd h (by simp [derivative_dims])
    | add e2 e3 => exact absurd h (by simp [derivative_dims])
    | mul e2 e3 => exact absurd h (by simp [derivative_dims])

/-- Every derivative node of a well-formed expression has a nonempty dimension
tuple. -/
theorem wf_find_derivatives {e : Expr} (h : e.wf = true) :
    ∀ p ∈ find_derivatives e, p.2 ≠ [] := by
  induction e with
  | func f => intro p hp; exact absurd hp (List.not_mem_nil p)
  | cnst k => intro p hp; exact absurd hp (List.not_mem_nil p)
  | deriv e2 ds ih =>
    intro p hp
    simp only [Expr.wf, Bool.and_eq_true] at h
    rcases List.mem_cons.1 hp with rfl | hp
    · intro hds
      have hds2 : ds = [] := hds
      rw [hds2] at h
      simp at h
    · exact ih h.2 p hp
  | add e2 e3 ih2 ih3 =>
    intro p hp
    simp only [Expr.wf, Bool.and_eq_true] at h
    rcases List.mem_append.1 hp with hp | hp
    · exact ih2 h.1 p hp
    · exact ih3 h.2 p hp
  | mul e2 e3 ih2 ih3 =>
    intro p hp
    simp only [Expr.wf, Bool.and_eq_true] at h
    rcases List.mem_append.1 hp with hp | hp
    · exact ih2 h.1 p hp
    · exact ih3 h.2 p hp

end BCLemmas

/-- C4: constructing a `BoundaryCondition` from a scalar equation succeeds
exactly when the right-hand side is zero and every derivative on the left-hand
side differentiates a bare function belonging to the selected function set;
otherwise it fails, always with the unsupported (`NotImplementedError`) error. -/
theorem mkBC_fails_iff (e : SEq) (w : Option (List Func)) :
    ((∃ bc, mkBoundaryCondition e w = Except.ok bc) ↔ ¬ UnsupportedShape e w) ∧
      (mkBoundaryCondition e w = Except.error Err.notImplemented ↔ UnsupportedShape e w) := by
  unfold mkBoundaryCondition
  by_cases hrhs : e.rhs = 0
  · rw [if_neg (by simp [hrhs])]
    cases hdd : derivative_dims (get_functions e.lhs w) (find_derivatives e.lhs) with
    | ok ds =>
      have hgood : ∀ p ∈ find_derivatives e.lhs,
          ∃ f, p.1 = Expr.func f ∧ f ∈ get_functions e.lhs w :=
        derivative_dims_ok_iff.1 ⟨ds, hdd⟩
      have hnu : ¬ UnsupportedShape e w := by
        rintro (h | ⟨p, hp, hbad⟩)
        · exact h hrhs
        · obtain ⟨f, hf1, hf2⟩ := hgood p hp
          rcases hbad with hbad | ⟨f2, hfe, hfn⟩
          · exact hbad f hf1
          · rw [hf1] at hfe
            injection hfe with hff
            rw [← hff] at hfn
            exact hfn hf2
      refine ⟨⟨fun _ => hnu, fun _ => ⟨_, rfl⟩⟩, ?_⟩
      constructor
      · intro h
        exact absurd h (by simp)
      · intro h
        exact absurd h hnu
    | error er =>
      have her : er = Err.notImplemented := derivative_dims_error_val hdd
      subst her
      have hbad : UnsupportedShape e w := by
        have hnall : ¬ ∀ p ∈ find_derivatives e.lhs,
            ∃ f, p.1 = Expr.func f ∧ f ∈ get_functions e.lhs w := by
          intro hall
          obtain ⟨ds, hds⟩ := derivative_dims_ok_iff.2 hall
          rw [hds] at hdd
          exact absurd hdd (by simp)
        rw [not_forall] at hnall
        obtain ⟨p, hnp⟩ := hnall
        rw [not_forall] at hnp
        obtain ⟨hp, hnp⟩ := hnp
        push_neg at hnp
        refine Or.inr ⟨p, hp, ?_⟩
        cases he : p.1 with
        | func f =>
          refine Or.inr ⟨f, rfl, ?_⟩
          intro hmem
          exact (hnp f (by rw [he])) hmem
        | cnst k => exact Or.inl (fun f hf => Expr.noConfusion hf)
        | deriv e2 ds2 => exact Or.inl (fun f hf => Expr.noConfusion hf)
        | add e2 e3 => exact Or.inl (fun f hf => Expr.noConfusion hf)
        | mul e2 e3 => exact Or.inl (fun f hf => Expr.noConfusion hf)
      refine ⟨⟨?_, fun h => absurd hbad h⟩, ⟨fun _ => hbad, fun _ => rfl⟩⟩
      rintro ⟨bc, hbc⟩
      exact absurd hbc (by simp)
  · rw [if_pos (by simp [hrhs])]
    have hbad : UnsupportedShape e w := Or.inl hrhs
    refine ⟨⟨?_, fun h => absurd hbad h⟩, ⟨fun _ => hbad, fun _ => rfl⟩⟩
    rintro ⟨bc, hbc⟩
    exact absurd hbc (by simp)

/-- C7: on a successfully constructed `BoundaryCondition`, `dims` is the union of
the axes differentiated by the derivatives of the left-hand side (all of which
target selected functions), and it is the `None` sentinel exactly when the
equation contains no derivatives (Devito derivatives always carrying at least one
dimension). -/
theorem bc_dims_union (e : SEq) (w : Option (List Func)) (bc : BoundaryCondition)
    (hwf : e.lhs.wf = true) (hok : mkBoundaryCondition e w = Except.ok bc) :
    (bc.dims = none ↔ find_derivatives e.lhs = []) ∧
      (∀ x, (∃ l, bc.dims = some l ∧ x ∈ l) ↔
        ∃ p ∈ find_derivatives e.lhs, x ∈ p.2 ∧
          ∃ f, p.1 = Expr.func f ∧ f ∈ get_functions e.lhs w) := by
  unfold mkBoundaryCondition at hok
  by_cases hrhs : e.rhs = 0
  · rw [if_neg (by simp [hrhs])] at hok
    cases hdd : derivative_dims (get_functions e.lhs w) (find_derivatives e.lhs) with
    | ok ds =>
      rw [hdd] at hok
      simp only [Except.ok.injEq] at hok
      have hdims : bc.dims = if ds.isEmpty then none else some ds.dedup := by
        rw [← hok]
      have hval : ds = (find_derivatives e.lhs).flatMap (fun p => p.2) :=
        derivative_dims_ok_val hdd
      have hgood : ∀ p ∈ find_derivatives e.lhs,
          ∃ f, p.1 = Expr.func f ∧ f ∈ get_functions e.lhs w :=
        derivative_dims_ok_iff.1 ⟨ds, hdd⟩
      have hne := wf_find_derivatives hwf
      constructor
      · rw [hdims]
        by_cases hemp : ds.isEmpty
        · rw [if_pos hemp]
          simp only [true_iff]
          rw [List.isEmpty_iff] at hemp
          rw [hemp] at hval
          cases hfd : find_derivatives e.lhs with
          | nil => rfl
          | cons p l =>
            exfalso
            have hp2 : p.2 = [] := by
              have hh := List.flatMap_eq_nil_iff.1 hval.symm p
                (by rw [hfd]; exact List.mem_cons_self _ _)
              exact hh
            exact hne p (by rw [hfd]; exact List.mem_cons_self _ _) hp2
        · rw [if_neg hemp]
          constructor
          · intro h
            exact absurd h (by simp)
          · intro h
            exfalso
            rw [h] at hval
            simp at hval
            rw [List.isEmpty_iff] at hemp
            exact hemp hval
      · intro x
        rw [hdims]
        by_cases hemp : ds.isEmpty
        · rw [if_pos hemp]
          rw [List.isEmpty_iff] at hemp
          constructor
          · rintro ⟨l, hl, _⟩
            exact absurd hl (by simp)
          · rintro ⟨p, hp, hx, _⟩
            have hxds : x ∈ ds := by
              rw [hval]
              exact List.mem_flatMap.2 ⟨p, hp, hx⟩
            rw [hemp] at hxds
            exact absurd hxds (List.not_mem_nil x)
        · rw [if_neg hemp]
          constructor
          · rintro ⟨l, hl, hx⟩
            simp only [Option.some.injEq] at hl
            rw [← hl] at hx
            rw [List.mem_dedup, hval] at hx
            obtain ⟨p, hp, hx⟩ := List.mem_flatMap.1 hx
            exact ⟨p, hp, hx, hgood p hp⟩
          · rintro ⟨p, hp, hx, _⟩
            refine ⟨ds.dedup, rfl, ?_⟩
            rw [List.mem_dedup, hval]
            exact List.mem_flatMap.2 ⟨p, hp, hx⟩
    | error er =>
      rw [hdd] at hok
      exact absurd hok (by simp)
  · rw [if_pos (by simp [hrhs])] at hok
    exact absurd hok (by simp)


/-! ## C9 and C1: grouping failure and discarded grouping output -/

/-- C9: when all conditions construct but some condition has an empty selected
function set while another contributes a node to the field graph,
`BoundaryConditions.__init__` fails during `_group_bcs` with the untyped
`IndexError` raised by `bc.funcs[0]` on the empty tuple, rather than succeeding
or raising a typed configuration error. -/
theorem empty_funcs_index_error (eqs : List Eqn) (w : Option (List Func))
    (bcs : List BoundaryCondition)
    (hok : setup_bcs (flatten_functions w) (flatten_equations eqs) = Except.ok bcs)
    (hempty : ∃ bc ∈ bcs, bc.funcs = [])
    (hnonempty : ∃ bc ∈ bcs, bc.funcs ≠ []) :
    mkBoundaryConditions eqs w = Except.error Err.indexError := by
  have hgb : group_bcs bcs = Except.error Err.indexError := by
    obtain ⟨bc0, hbc0, hf0⟩ := hnonempty
    obtain ⟨x, hx⟩ := List.exists_mem_of_ne_nil _ hf0
    have hcov : Covers (components bcs) x := covers_components_iff.2 ⟨bc0, hbc0, hx⟩
    obtain ⟨c, hc, _⟩ := hcov
    cases hcomp : components bcs with
    | nil =>
      rw [hcomp] at hc
      exact absurd hc (List.not_mem_nil _)
    | cons c0 cs =>
      have hany : bcs.any (fun bc => bc.funcs.isEmpty) = true := by
        rw [List.any_eq_true]
        obtain ⟨bc1, hbc1, hf1⟩ := hempty
        exact ⟨bc1, hbc1, List.isEmpty_iff.2 hf1⟩
      unfold group_bcs
      rw [hcomp, hany]
      simp
  have hred : mkBoundaryConditions eqs w =
      (match group_bcs bcs with
        | Except.error er => Except.error er
        | Except.ok _ =>
          Except.ok ⟨flatten_functions w, flatten_equations eqs, bcs⟩) := by
    unfold mkBoundaryConditions
    rw [hok]
  rw [hred, hgb]

/-- C1 (code-bug evidence): at a concrete input the constructor succeeds and the
returned object consists solely of the flattened functions, flattened equations
and per-equation conditions, while `_group_bcs` on those conditions computes a
nonempty group list and a nonempty field-to-group map — values the constructor
discards (the source only prints `f_map` and stores neither, despite its class
docstring advertising `groups` and `function_map` attributes). -/
theorem groups_computed_but_discarded :
    mkBoundaryConditions sampleEqs none =
      Except.ok ⟨none, flatten_equations sampleEqs, sampleEqsBCs⟩ ∧
      ∃ r, group_bcs sampleEqsBCs = Except.ok r ∧ r.1 ≠ [] ∧ r.2 ≠ [] := by
  refine ⟨rfl, ⟨_, rfl, ?_, ?_⟩⟩ <;> decide

/-! ## C3: order independence of grouping -/

theorem perm_flatMap {α β : Type} (f : α → List β) {l1 l2 : List α}
    (h : l1.Perm l2) : (l1.flatMap f).Perm (l2.flatMap f) := by
  induction h with
  | nil => exact List.Perm.refl _
  | cons x h ih =>
    rw [List.flatMap_cons, List.flatMap_cons]
    exact ih.append_left (f x)
  | swap x y l =>
    rw [List.flatMap_cons, List.flatMap_cons, List.flatMap_cons, List.flatMap_cons,
      ← List.append_assoc, ← List.append_assoc]
    exact List.Perm.append_right _ List.perm_append_comm
  | trans h1 h2 ih1 ih2 => exact ih1.trans ih2

theorem flatten_equations_perm {eqs1 eqs2 : List Eqn} (h : eqs1.Perm eqs2) :
    (flatten_equations eqs1).Perm (flatten_equations eqs2) := by
  unfold flatten_equations
  exact (perm_flatMap _ h).dedup

/-- `_setup_bcs` maps a permutation of the scalar equations to a permutation of
the conditions (when construction succeeds). -/
theorem setup_bcs_perm {w : Option (List Func)} {l1 l2 : List SEq} (h : l1.Perm l2)
    {bcs1 : List BoundaryCondition} (hok : setup_bcs w l1 = Except.ok bcs1) :
    ∃ bcs2, setup_bcs w l2 = Except.ok bcs2 ∧ bcs1.Perm bcs2 := by
  induction h generalizing bcs1 with
  | nil => exact ⟨bcs1, hok, List.Perm.refl _⟩
  | cons x h ih =>
    rename_i t1 t2
    simp only [setup_bcs] at hok
    cases hbc : mkBoundaryCondition x w with
    | error er =>
      rw [hbc] at hok
      exact absurd hok (by simp)
    | ok bc =>
      rw [hbc] at hok
      cases hrest : setup_bcs w t1 with
      | error er =>
        rw [hrest] at hok
        exact absurd hok (by simp)
      | ok bcs1t =>
        rw [hrest] at hok
        simp only [Except.ok.injEq] at hok
        obtain ⟨bcs2t, hok2, hperm⟩ := ih hrest
        refine ⟨bc :: bcs2t, ?_, ?_⟩
        · simp only [setup_bcs]
          rw [hbc, hok2]
        · rw [← hok]
          exact hperm.cons bc
  | swap x y l =>
    simp only [setup_bcs] at hok
    cases hy : mkBoundaryCondition y w with
    | error er =>
      rw [hy] at hok
      exact absurd hok (by simp)
    | ok bcy =>
      rw [hy] at hok
      cases hx : mkBoundaryCondition x w with
      | error er =>
        rw [hx] at hok
        cases hl : setup_bcs w l with
        | error er2 =>
          rw [hl] at hok
          exact absurd hok (by simp)
        | ok bcsl =>
          rw [hl] at hok
          exact absurd hok (by simp)
      | ok bcx =>
        rw [hx] at hok
        cases hl : setup_bcs w l with
        | error er2 =>
          rw [hl] at hok
          exact absurd hok (by simp)
        | ok bcsl =>
          rw [hl] at hok
          simp only [Except.ok.injEq] at hok
          refine ⟨bcx :: bcy :: bcsl, ?_, ?_⟩
          · simp only [setup_bcs]
            rw [hx, hy, hl]
          · rw [← hok]
            exact List.Perm.swap bcx bcy bcsl
  | trans h1 h2 ih1 ih2 =>
    obtain ⟨b2, hok2, hp1⟩ := ih1 hok
    obtain ⟨b3, hok3, hp2⟩ := ih2 hok2
    exact ⟨b3, hok3, hp1.trans hp2⟩

theorem forall2_mem_left {α β : Type} {R : α → β → Prop} {l1 : List α} {l2 : List β}
    (h : List.Forall₂ R l1 l2) {x : α} (hx : x ∈ l1) : ∃ y ∈ l2, R x y := by
  induction h with
  | nil => exact absurd hx (List.not_mem_nil x)
  | cons hr ht ih =>
    rcases List.mem_cons.1 hx with rfl | hx
    · exact ⟨_, List.mem_cons_self _ _, hr⟩
    · obtain ⟨y, hy, hxy⟩ := ih hx
      exact ⟨y, List.mem_cons_of_mem _ hy, hxy⟩

theorem forall2_mem_right {α β : Type} {R : α → β → Prop} {l1 : List α} {l2 : List β}
    (h : List.Forall₂ R l1 l2) {y : β} (hy : y ∈ l2) : ∃ x ∈ l1, R x y := by
  induction h with
  | nil => exact absurd hy (List.not_mem_nil y)
  | cons hr ht ih =>
    rcases List.mem_cons.1 hy with rfl | hy
    · exact ⟨_, List.mem_cons_self _ _, hr⟩
    · obtain ⟨x, hx, hxy⟩ := ih hy
      exact ⟨x, List.mem_cons_of_mem _ hx, hxy⟩

theorem linked_of_perm {bcs1 bcs2 : List BoundaryCondition} (h : bcs1.Perm bcs2)
    (a b : Func) : Linked bcs1 a b ↔ Linked bcs2 a b := by
  unfold Linked LinkedL
  constructor
  · rintro ⟨fs, hfs, ha, hb⟩
    exact ⟨fs, ((h.map _).mem_iff).1 hfs, ha, hb⟩
  · rintro ⟨fs, hfs, ha, hb⟩
    exact ⟨fs, ((h.map _).mem_iff).2 hfs, ha, hb⟩

theorem linked_of_forall2 {bcs1 bcs2 : List BoundaryCondition}
    (h : List.Forall₂ (fun u v => SetEqL u.funcs v.funcs) bcs1 bcs2)
    (a b : Func) : Linked bcs1 a b ↔ Linked bcs2 a b := by
  unfold Linked LinkedL
  constructor
  · rintro ⟨fs, hfs, ha, hb⟩
    obtain ⟨bc, hbc, rfl⟩ := List.mem_map.1 hfs
    obtain ⟨bc2, hbc2, hset⟩ := forall2_mem_left h hbc
    exact ⟨bc2.funcs, List.mem_map_of_mem _ hbc2, (hset a).1 ha, (hset b).1 hb⟩
  · rintro ⟨fs, hfs, ha, hb⟩
    obtain ⟨bc, hbc, rfl⟩ := List.mem_map.1 hfs
    obtain ⟨bc2, hbc2, hset⟩ := forall2_mem_right h hbc
    exact ⟨bc2.funcs, List.mem_map_of_mem _ hbc2, (hset a).2 ha, (hset b).2 hb⟩

/-- Components refine across any two condition lists with the same link
relation. -/
theorem components_refine {bcs1 bcs2 : List BoundaryCondition}
    (hlink : ∀ a b, Linked bcs1 a b ↔ Linked bcs2 a b) :
    ∀ c ∈ components bcs1, ∃ c2 ∈ components bcs2, SetEqL c c2 := by
  intro c hc
  obtain ⟨x, hx⟩ := List.exists_mem_of_ne_nil c (components_ne c hc)
  have hT1 : Relation.TransGen (Linked bcs1) x x := (mem_components_class hc hx x).1 hx
  have hT2 : Relation.TransGen (Linked bcs2) x x := (transGen_congr hlink).1 hT1
  obtain ⟨c2, hc2, hx2⟩ := covers_of_transGen hT2
  refine ⟨c2, hc2, fun y => ?_⟩
  rw [mem_components_class hc hx y, mem_components_class hc2 hx2 y]
  exact transGen_congr hlink

/-- C3: permuting the input equation list leaves the computed groups unchanged
when compared as sets of field sets; moreover replacing any condition's function
tuple by one with the same members (in particular, rooting its star edges at a
different function) leaves them unchanged too. -/
theorem grouping_order_independent (eqs1 eqs2 : List Eqn) (w : Option (List Func))
    (bcs1 : List BoundaryCondition)
    (r1 : List ConditionGroup × List (Func × ConditionGroup))
    (hperm : eqs1.Perm eqs2)
    (h1 : setup_bcs (flatten_functions w) (flatten_equations eqs1) = Except.ok bcs1)
    (hg1 : group_bcs bcs1 = Except.ok r1) :
    ∃ bcs2p, setup_bcs (flatten_functions w) (flatten_equations eqs2) = Except.ok bcs2p ∧
      bcs1.Perm bcs2p ∧
      ∀ bcs2, List.Forall₂ (fun u v => SetEqL u.funcs v.funcs) bcs2p bcs2 →
        ∃ r2, group_bcs bcs2 = Except.ok r2 ∧ GroupsMatch r1.1 r2.1 := by
  obtain ⟨bcs2p, hok2, hpermbcs⟩ := setup_bcs_perm (flatten_equations_perm hperm) h1
  refine ⟨bcs2p, hok2, hpermbcs, ?_⟩
  intro bcs2 hroot
  have hlink : ∀ a b, Linked bcs1 a b ↔ Linked bcs2 a b := fun a b =>
    (linked_of_perm hpermbcs a b).trans (linked_of_forall2 hroot a b)
  have hlink2 : ∀ a b, Linked bcs2 a b ↔ Linked bcs1 a b := fun a b => (hlink a b).symm
  have hempty_iff : (∃ bc ∈ bcs2, bc.funcs = []) → (∃ bc ∈ bcs1, bc.funcs = []) := by
    rintro ⟨bc2, hbc2, hf2⟩
    obtain ⟨bc1, hbc1, hset⟩ := forall2_mem_right hroot hbc2
    refine ⟨bc1, hpermbcs.mem_iff.2 hbc1, ?_⟩
    rw [List.eq_nil_iff_forall_not_mem]
    intro x hx
    have hmem := (hset x).1 hx
    rw [hf2] at hmem
    exact List.not_mem_nil x hmem
  cases hcomp1 : components bcs1 with
  | nil =>
    have hr1 : r1 = ([], []) := by
      unfold group_bcs at hg1
      rw [hcomp1] at hg1
      simp only [Except.ok.injEq] at hg1
      exact hg1.symm
    have hcomp2 : components bcs2 = [] := by
      unfold components
      rw [componentsOf_eq_nil_iff]
      intro a ha
      obtain ⟨fs, hfs, hx⟩ := ha
      obtain ⟨bc, hbc, rfl⟩ := List.mem_map.1 hfs
      have hl2 : Linked bcs2 a a := ⟨bc.funcs, List.mem_map_of_mem _ hbc, hx, hx⟩
      have hcov := covers_of_transGen (Relation.TransGen.single ((hlink a a).2 hl2))
      rw [hcomp1] at hcov
      obtain ⟨c, hc, _⟩ := hcov
      exact absurd hc (List.not_mem_nil c)
    refine ⟨([], []), ?_, ?_⟩
    · unfold group_bcs
      rw [hcomp2]
    · rw [hr1]
      exact ⟨fun g hg => absurd hg (List.not_mem_nil g),
        fun g hg => absurd hg (List.not_mem_nil g)⟩
  | cons c0 cs =>
    have hnot1 : bcs1.any (fun bc => bc.funcs.isEmpty) = false := by
      cases hb : bcs1.any (fun bc => bc.funcs.isEmpty) with
      | false => rfl
      | true =>
        exfalso
        unfold group_bcs at hg1
        rw [hcomp1, hb] at hg1
        simp at hg1
    have hnot2 : bcs2.any (fun bc => bc.funcs.isEmpty) = false := by
      cases hb : bcs2.any (fun bc => bc.funcs.isEmpty) with
      | false => rfl
      | true =>
        exfalso
        obtain ⟨bc2, hbc2, hf2⟩ := List.any_eq_true.1 hb
        obtain ⟨bc1, hbc1, hf1⟩ := hempty_iff ⟨bc2, hbc2, List.isEmpty_iff.1 hf2⟩
        have hb1 : bcs1.any (fun bc => bc.funcs.isEmpty) = true :=
          List.any_eq_true.2 ⟨bc1, hbc1, List.isEmpty_iff.2 hf1⟩
        rw [hb1] at hnot1
        exact Bool.noConfusion hnot1
    obtain ⟨x0, hx0⟩ := List.exists_mem_of_ne_nil c0
      (components_ne c0 (by rw [hcomp1]; exact List.mem_cons_self _ _))
    have hT1 : Relation.TransGen (Linked bcs1) x0 x0 :=
      (mem_components_class (by rw [hcomp1]; exact List.mem_cons_self _ _) hx0 x0).1 hx0
    have hcov2 := covers_of_transGen ((transGen_congr hlink).1 hT1)
    cases hcomp2 : components bcs2 with
    | nil =>
      exfalso
      rw [hcomp2] at hcov2
      obtain ⟨c, hc, _⟩ := hcov2
      exact absurd hc (List.not_mem_nil c)
    | cons d0 ds =>
      have hr1eq : r1 = ((c0 :: cs).map (mkGroup bcs1),
          ((c0 :: cs).map (mkGroup bcs1)).flatMap (fun g => g.funcs.map (fun f => (f, g)))) := by
        rw [group_bcs_ok hcomp1 hnot1] at hg1
        simp only [Except.ok.injEq] at hg1
        exact hg1.symm
      refine ⟨_, group_bcs_ok hcomp2 hnot2, ?_⟩
      rw [hr1eq]
      constructor
      · intro g hg
        obtain ⟨comp, hcm, rfl⟩ := List.mem_map.1 hg
        obtain ⟨c2, hc2, hset⟩ :=
          components_refine hlink comp (by rw [hcomp1]; exact hcm)
        rw [hcomp2] at hc2
        exact ⟨mkGroup bcs2 c2, List.mem_map_of_mem _ hc2, hset⟩
      · intro g hg
        obtain ⟨comp, hcm, rfl⟩ := List.mem_map.1 hg
        obtain ⟨c1, hc1, hset⟩ :=
          components_refine hlink2 comp (by rw [hcomp2]; exact hcm)
        rw [hcomp1] at hc1
        exact ⟨mkGroup bcs1 c1, List.mem_map_of_mem _ hc1, fun x => (hset x).symm⟩


/-! ## Witnesses: each hypothesis-bearing theorem applied at a concrete input -/

/-- Witness for `grouping_matches_components` on two conditions with nonempty
field sets. -/
theorem grouping_matches_components_witness :
    (∀ bc ∈ sampleBCs, bc.funcs ≠ []) ∧
      (∃ r, group_bcs sampleBCs = Except.ok r ∧
        (∀ x y, StarConn sampleBCs x y ↔ Relation.TransGen (Linked sampleBCs) x y) ∧
        (∀ g ∈ r.1, EquivClass sampleBCs g.funcs) ∧
        (∀ c, EquivClass sampleBCs c → ∃ g ∈ r.1, SetEqL c g.funcs) ∧
        r.1.Pairwise (fun g h => ¬ SetEqL g.funcs h.funcs) ∧
        (∀ g ∈ r.1, ∀ bc, bc ∈ g.conditions ↔ (bc ∈ sampleBCs ∧ ∃ f ∈ bc.funcs, f ∈ g.funcs)) ∧
        (∀ bc1 ∈ sampleBCs, ∀ bc2 ∈ sampleBCs,
          (∃ g ∈ r.1, bc1 ∈ g.conditions ∧ bc2 ∈ g.conditions) ↔
            ∃ f1 ∈ bc1.funcs, ∃ f2 ∈ bc2.funcs,
              Relation.TransGen (Linked sampleBCs) f1 f2)) :=
  ⟨by decide, grouping_matches_components sampleBCs (by decide)⟩

/-- Witness for `grouping_order_independent` on a two-equation permutation. -/
theorem grouping_order_independent_witness :
    permEqs1.Perm permEqs2 ∧
      setup_bcs (flatten_functions none) (flatten_equations permEqs1) = Except.ok permBCs1 ∧
      group_bcs permBCs1 = Except.ok permR1 ∧
      (∃ bcs2p, setup_bcs (flatten_functions none) (flatten_equations permEqs2) =
          Except.ok bcs2p ∧
        permBCs1.Perm bcs2p ∧
        ∀ bcs2, List.Forall₂ (fun u v => SetEqL u.funcs v.funcs) bcs2p bcs2 →
          ∃ r2, group_bcs bcs2 = Except.ok r2 ∧ GroupsMatch permR1.1 r2.1) :=
  ⟨by decide, rfl, rfl,
    grouping_order_independent permEqs1 permEqs2 none permBCs1 permR1 (by decide) rfl rfl⟩

/-- Witness for `modified_points_subset_interior` at a concrete skin point. -/
theorem modified_points_subset_interior_witness :
    [(1 : Int)] ∈ modified_points sampleDeriv1d sampleGeometry ∧
      ((∀ i, i < sampleGeometry.shape.length →
          0 ≤ ([(1 : Int)] : List Int).getD i 0 ∧
            ([(1 : Int)] : List Int).getD i 0 < (sampleGeometry.shape.getD i 0 : Int)) ∧
        sampleGeometry.interior_mask [(1 : Int)] = true ∧
        (modified_points sampleDeriv1d sampleGeometry).Nodup) :=
  ⟨by decide,
    modified_points_subset_interior sampleDeriv1d sampleGeometry [(1 : Int)] (by decide)⟩

/-- Witness for `footprint_even` at order 2 in two dimensions. -/
theorem footprint_even_witness :
    sampleDeriv2d.space_order % 2 = 0 ∧
      ((∀ a ∈ sampleDeriv2d.space_dimensions, a ∈ sampleDeriv2d.dims →
        (axisSpan sampleDeriv2d a).length = sampleDeriv2d.space_order + 1 ∧
        (∀ x : Int, x ∈ axisSpan sampleDeriv2d a ↔
          -((sampleDeriv2d.space_order / 2 : Nat) : Int) ≤ x ∧
            x ≤ ((sampleDeriv2d.space_order / 2 : Nat) : Int)) ∧
        (∀ x : Int, x ∈ axisSpan sampleDeriv2d a → -x ∈ axisSpan sampleDeriv2d a)) ∧
      (∀ a ∈ sampleDeriv2d.space_dimensions, a ∉ sampleDeriv2d.dims →
        axisSpan sampleDeriv2d a = [0]) ∧
      (∀ v, v ∈ stencil_footprint sampleDeriv2d ↔
        (v.length = sampleDeriv2d.space_dimensions.length ∧
          ∀ i, i < sampleDeriv2d.space_dimensions.length →
            v.getD i 0 ∈ axisSpan sampleDeriv2d (sampleDeriv2d.space_dimensions.getD i 0)))) :=
  ⟨by decide, footprint_even sampleDeriv2d (by decide)⟩

/-- Witness for `bc_dims_union` on an equation with one derivative. -/
theorem bc_dims_union_witness :
    derivEq.lhs.wf = true ∧
      mkBoundaryCondition derivEq none = Except.ok derivBC ∧
      ((derivBC.dims = none ↔ find_derivatives derivEq.lhs = []) ∧
        (∀ x, (∃ l, derivBC.dims = some l ∧ x ∈ l) ↔
          ∃ p ∈ find_derivatives derivEq.lhs, x ∈ p.2 ∧
            ∃ f, p.1 = Expr.func f ∧ f ∈ get_functions derivEq.lhs none)) :=
  ⟨by decide, rfl, bc_dims_union derivEq none derivBC (by decide) rfl⟩

/-- Witness for `modified_points_of_empty_boundary` on a boundary-free geometry. -/
theorem modified_points_of_empty_boundary_witness :
    emptyGeometry.boundary_points = [] ∧
      modified_points sampleDeriv1d emptyGeometry = [] :=
  ⟨rfl, modified_points_of_empty_boundary sampleDeriv1d emptyGeometry rfl⟩

/-- Witness for `empty_funcs_index_error`: an equation on a static function plus
one on a time-dependent function. -/
theorem empty_funcs_index_error_witness :
    setup_bcs (flatten_functions none) (flatten_equations emptySelEqs) =
        Except.ok emptySelBCs ∧
      (∃ bc ∈ emptySelBCs, bc.funcs = []) ∧
      (∃ bc ∈ emptySelBCs, bc.funcs ≠ []) ∧
      mkBoundaryConditions emptySelEqs none = Except.error Err.indexError :=
  ⟨rfl, by decide, by decide,
    empty_funcs_index_error emptySelEqs none emptySelBCs rfl (by decide) (by decide)⟩

/-- Witness for `footprint_odd` at order 3. -/
theorem footprint_odd_witness :
    sampleDerivOdd.space_order % 2 = 1 ∧
      (∀ a ∈ sampleDerivOdd.dims,
        (axisSpan sampleDerivOdd a).length = sampleDerivOdd.space_order + 1 ∧
        (∀ x : Int, x ∈ axisSpan sampleDerivOdd a ↔
          -(((sampleDerivOdd.space_order + 1) / 2 : Nat) : Int) ≤ x ∧
            x ≤ (((sampleDerivOdd.space_order - 1) / 2 : Nat) : Int)) ∧
        -(((sampleDerivOdd.space_order + 1) / 2 : Nat) : Int) ∈ axisSpan sampleDerivOdd a ∧
        (((sampleDerivOdd.space_order + 1) / 2 : Nat) : Int) ∉ axisSpan sampleDerivOdd a) :=
  ⟨by decide, footprint_odd sampleDerivOdd (by decide)⟩

end Schism
